import Mathlib

/-!
# Verification of the BTE document-structuring engine

Shallow embedding of `src/parser.ts` (class `BteParser` and its helpers):
line reconstruction from positioned text runs, noise filtering, metadata
extraction, stack-based tree construction and body-text normalization.

Strings are modelled as `List Char`.  JavaScript numbers that carry page
coordinates are modelled as `Int` (only comparisons, subtraction and
absolute value are performed on them in the source).  Every function is
written to mirror the JavaScript control flow of the source file; fuel
parameters are used where the recursion consumes a variable number of
elements per step, with the fuel instantiated so that it never runs out.
-/

namespace Bte

/-- Embedding of the JavaScript regular-expression class `\s`
(restricted to the whitespace code points relevant to the repository's
inputs; JavaScript additionally treats some exotic Unicode spaces as
`\s`, which never occur in the patterns or examples considered here). -/
def isWs (c : Char) : Bool :=
  c == ' ' || c == '\t' || c == '\n' || c == '\r' || c == '\x0b' || c == '\x0c'

/-- Embedding of the JavaScript class `\d` (ASCII digits). -/
def isDigitC (c : Char) : Bool :=
  '0' ≤ c && c ≤ '9'

/-- Embedding of `[a-z]` under the `i` flag (ASCII letters, either case). -/
def isAsciiAlphaC (c : Char) : Bool :=
  ('a' ≤ c && c ≤ 'z') || ('A' ≤ c && c ≤ 'Z')

/-- Lower-casing for the characters appearing in the source's
case-insensitive (`/i`) patterns: ASCII plus the accented letters used by
the Portuguese keywords of `parser.ts`. -/
def toLowerPT (c : Char) : Char :=
  if 'A' ≤ c && c ≤ 'Z' then Char.ofNat (c.toNat + 32)
  else if c = 'Á' then 'á' else if c = 'À' then 'à'
  else if c = 'Â' then 'â' else if c = 'Ã' then 'ã'
  else if c = 'Ç' then 'ç' else if c = 'É' then 'é'
  else if c = 'Ê' then 'ê' else if c = 'Í' then 'í'
  else if c = 'Ó' then 'ó' else if c = 'Ô' then 'ô'
  else if c = 'Õ' then 'õ' else if c = 'Ú' then 'ú'
  else c

/-- Case-insensitive equality of two characters (for `/i` patterns). -/
def ciEqC (a b : Char) : Bool :=
  toLowerPT a == toLowerPT b

/-- Case-insensitive equality of two strings. -/
def ciEq (a b : List Char) : Bool :=
  a.length == b.length && (List.zip a b).all fun p => ciEqC p.1 p.2

/-- Case-insensitive test that `pat` is a prefix of `s`; returns the
remainder of `s` after the matched prefix. -/
def ciStarts (pat s : List Char) : Option (List Char) :=
  match pat, s with
  | [], s => some s
  | _ :: _, [] => none
  | p :: ps, c :: cs => if ciEqC p c then ciStarts ps cs else none

/-- Embedding of JavaScript `String.prototype.trim`. -/
def trimWs (l : List Char) : List Char :=
  ((l.dropWhile isWs).reverse.dropWhile isWs).reverse

/-!
## Step 3.1 of the source: text extraction (`extractTextFromPdf`)

The engine's input primitive: one decoded text item per positioned run,
`{text: item.str, y: item.transform[5], x: item.transform[4],
hasEol: item.hasEOL}` (parser.ts lines 161-166).
-/

/-- A positioned run as mapped from a `pdfjs` text item. -/
structure RunItem where
  text : List Char
  y : Int
  x : Int
  hasEol : Bool
  deriving DecidableEq, Repr

/-- A reconstructed text line (`interface TextLine` of the source). -/
structure TextLine where
  text : List Char
  y : Int
  isBold : Bool
  page : Nat
  deriving DecidableEq, Repr

/-- The sort comparator of parser.ts lines 169-172, as the relation
"`a` sorts no later than `b`" (comparator value `≤ 0`):
if `|a.y - b.y| > 2` items are ordered by descending `y`,
otherwise by ascending `x`. -/
def runLe (a b : RunItem) : Bool :=
  if (a.y - b.y).natAbs > 2 then b.y ≤ a.y else a.x ≤ b.x

/-- Insertion of one run into an already sorted list (the embedding of
the JavaScript `Array.prototype.sort` call). -/
def insertRun (a : RunItem) : List RunItem → List RunItem
  | [] => [a]
  | b :: l => if runLe a b then a :: b :: l else b :: insertRun a l

/-- Sorting the runs of one page with the source's comparator. -/
def sortRuns : List RunItem → List RunItem
  | [] => []
  | a :: l => insertRun a (sortRuns l)

/-- The grouping loop of parser.ts lines 174-193: walk the sorted items,
starting a new line whenever the `y` of the current item differs from the
previous item's `y` by more than `5`; a line is flushed trimmed and only
if it does not trim to empty, carrying the `y` of its last run. -/
def groupGo (page : Nat) (cur : List Char) (lastY : Int) :
    List RunItem → List TextLine
  | [] =>
    if trimWs cur ≠ [] then [⟨trimWs cur, lastY, false, page⟩] else []
  | r :: rest =>
    if lastY ≠ -1 ∧ (r.y - lastY).natAbs > 5 then
      (if trimWs cur ≠ [] then [⟨trimWs cur, lastY, false, page⟩] else []) ++
        groupGo page (r.text ++ [' ']) r.y rest
    else
      groupGo page (cur ++ r.text ++ [' ']) r.y rest

/-- Line reconstruction for one page. -/
def pageLines (page : Nat) (items : List RunItem) : List TextLine :=
  groupGo page [] (-1) (sortRuns items)

/-- `extractTextFromPdf`: pages are processed in order, numbered from 1;
the binary decoding done by `pdfjs` is outside the engine, so the
function takes the per-page decoded items directly. -/
def extractTextFromPdf (pages : List (List RunItem)) : List TextLine :=
  go 1 pages
where
  go (i : Nat) : List (List RunItem) → List TextLine
    | [] => []
    | p :: ps => pageLines i p ++ go (i + 1) ps

/-!
## Step 3.2 of the source: `cleanNoise` (parser.ts lines 213-232)
-/

/-- Does the list contain `pat` as a contiguous substring
(JavaScript `String.prototype.includes`)? -/
def containsSub (pat : List Char) : List Char → Bool
  | [] => pat.isEmpty
  | c :: rest => pat.isPrefixOf (c :: rest) || containsSub pat rest

/-- `/^\d+$/` : the trimmed text is one or more digits and nothing else. -/
def onlyDigitsP (t : List Char) : Bool :=
  !t.isEmpty && t.all isDigitC

/-- `/^BTE\s+\d+\s*\|\s*\d+$/i` : the "BTE <num> | <num>" footer.
The quantifiers are all greedy over pairwise disjoint character classes,
so the match is the deterministic maximal-munch parse below. -/
def bteFooterP (t : List Char) : Bool :=
  match ciStarts ['B', 'T', 'E'] t with
  | none => false
  | some r0 =>
    let w1 := r0.takeWhile isWs
    let r1 := r0.dropWhile isWs
    let d1 := r1.takeWhile isDigitC
    let r2 := r1.dropWhile isDigitC
    let r3 := r2.dropWhile isWs
    !w1.isEmpty && !d1.isEmpty &&
      match r3 with
      | '|' :: r4 =>
        let r5 := r4.dropWhile isWs
        let d2 := r5.takeWhile isDigitC
        let r6 := r5.dropWhile isDigitC
        !d2.isEmpty && r6.isEmpty
      | _ => false

/-- The anchored case-insensitive category captions
`/^(CONVENÇÕES COLETIVAS|PRIVADO|REGULAMENTAÇÃO DO TRABALHO|ORGANIZAÇÕES
DO TRABALHO|CONSELHO ECONÓMICO E SOCIAL|ARBITRAGEM.*|Acórdão.*)$/i`.
`.` does not match line terminators, hence the `noNl` condition on the
tails of the two open-ended alternatives. -/
def ignoreP (t : List Char) : Bool :=
  let noNl : List Char → Bool := fun l => l.all fun c => c ≠ '\n' && c ≠ '\r'
  ciEq t "CONVENÇÕES COLETIVAS".toList ||
  ciEq t "PRIVADO".toList ||
  ciEq t "REGULAMENTAÇÃO DO TRABALHO".toList ||
  ciEq t "ORGANIZAÇÕES DO TRABALHO".toList ||
  ciEq t "CONSELHO ECONÓMICO E SOCIAL".toList ||
  (match ciStarts "ARBITRAGEM".toList t with
   | some r => noNl r
   | none => false) ||
  (match ciStarts "Acórdão".toList t with
   | some r => noNl r
   | none => false)

/-- The rejection predicate of `cleanNoise`: a line is dropped when its
trimmed text is only digits, contains the bulletin boilerplate, is a
volume header (contains `|`, `Vol.` and `n.º`), is a BTE footer, or is a
category caption. -/
def noiseReject (txt : List Char) : Bool :=
  onlyDigitsP txt ||
  containsSub "Boletim do Trabalho e Emprego".toList txt ||
  (txt.contains '|' && containsSub "Vol.".toList txt && containsSub "n.º".toList txt) ||
  bteFooterP txt ||
  ignoreP txt

/-- `cleanNoise` (parser.ts lines 213-232): a pure filter on the lines. -/
def cleanNoise (lines : List TextLine) : List TextLine :=
  lines.filter fun line => ! noiseReject (trimWs line.text)

/-!
## Step 2 of the source: `convertDateToISO` (parser.ts lines 48-80)
-/

/-- The Portuguese month-name table of `convertDateToISO`. -/
def monthMap (m : List Char) : Option (List Char) :=
  if m = "janeiro".toList then some "01".toList
  else if m = "fevereiro".toList then some "02".toList
  else if m = "março".toList then some "03".toList
  else if m = "abril".toList then some "04".toList
  else if m = "maio".toList then some "05".toList
  else if m = "junho".toList then some "06".toList
  else if m = "julho".toList then some "07".toList
  else if m = "agosto".toList then some "08".toList
  else if m = "setembro".toList then some "09".toList
  else if m = "outubro".toList then some "10".toList
  else if m = "novembro".toList then some "11".toList
  else if m = "dezembro".toList then some "12".toList
  else none

/-- Global replacement of `/\s+de\s+/` by a single space
(the `cleanDate` step).  A match starting inside a whitespace run exists
exactly when the run is followed by `de` and further whitespace, and the
greedy quantifiers then consume both full runs; scanning resumes after
the replaced match.  `fuel` decreases by at least one consumed character
per step and is instantiated with the length of the string. -/
def replDeGo : Nat → List Char → List Char
  | 0, l => l
  | _ + 1, [] => []
  | n + 1, c :: rest =>
    if isWs c then
      let r1 := (c :: rest).dropWhile isWs
      match r1 with
      | 'd' :: 'e' :: r2 =>
        if r2.head?.any isWs then
          ' ' :: replDeGo n (r2.dropWhile isWs)
        else
          (c :: rest).takeWhile isWs ++ replDeGo n r1
      | _ => (c :: rest).takeWhile isWs ++ replDeGo n r1
    else
      c :: replDeGo n rest

def replDe (l : List Char) : List Char :=
  replDeGo l.length l

/-- JavaScript `split(/\s+/)`: tokens between whitespace runs, with an
empty token at either end when the string starts or ends with
whitespace, and `[""]` for the empty string. -/
def splitWsGo (acc : List (List Char)) (cur : List Char) (inWs : Bool) :
    List Char → List (List Char)
  | [] => (cur.reverse :: acc).reverse
  | c :: rest =>
    if isWs c then
      if inWs then splitWsGo acc cur true rest
      else splitWsGo (cur.reverse :: acc) [] true rest
    else splitWsGo acc (c :: cur) false rest

def splitWs (l : List Char) : List (List Char) :=
  splitWsGo [] [] false l

/-- JavaScript `padStart(2, '0')`. -/
def padStart2 (l : List Char) : List Char :=
  if l.length < 2 then List.replicate (2 - l.length) '0' ++ l else l

/-- `convertDateToISO` (parser.ts lines 48-80).  `today` stands for the
current date `new Date().toISOString().split('T')[0]` returned when
parsing fails. -/
def convertDateToISO (today ptDate : List Char) : List Char :=
  let cleanDate := replDe (ptDate.map toLowerPT)
  let parts := splitWs cleanDate
  if parts.length < 3 then today
  else
    let day0 := parts.headD []
    let monthName0 := parts.getD 1 []
    let year0 := parts.getD 2 []
    let monthIndex := parts.findIdx fun p => (monthMap p).isSome
    let reassign :=
      monthIndex < parts.length ∧ monthIndex > 0 ∧ monthIndex + 1 < parts.length
    let day1 := if reassign then parts.getD (monthIndex - 1) [] else day0
    let monthName := if reassign then parts.getD monthIndex [] else monthName0
    let year := if reassign then parts.getD (monthIndex + 1) [] else year0
    let month := monthMap monthName
    let day := padStart2 day1
    match month with
    | some m =>
      if year.length = 4 then year ++ '-' :: m ++ '-' :: day else today
    | none => today

/-!
## Step 3.2 of the source: `extractGlobalMetadata` (parser.ts lines 239-283)
-/

/-- Matching the part of `headerLineRegex` that follows the lazy group:
`\s*\|\s*n\.º\s*(\d+)\s*\|\s*Vol\.\s*(\d+)` (case-insensitive).  All
quantified classes are disjoint from the literal that follows them, so
greedy matching is maximal-munch.  Returns the two captured digit
groups. -/
def headerTailMatch (s : List Char) : Option (List Char × List Char) :=
  match s.dropWhile isWs with
  | '|' :: r1 =>
    match ciStarts "n.º".toList (r1.dropWhile isWs) with
    | none => none
    | some r2 =>
      let r3 := r2.dropWhile isWs
      let num := r3.takeWhile isDigitC
      if num.isEmpty then none
      else
        match (r3.dropWhile isDigitC).dropWhile isWs with
        | '|' :: r4 =>
          match ciStarts "Vol.".toList (r4.dropWhile isWs) with
          | none => none
          | some r5 =>
            let r6 := r5.dropWhile isWs
            let vol := r6.takeWhile isDigitC
            if vol.isEmpty then none else some (num, vol)
        | _ => none
  | _ => none

/-- `txt.match(headerLineRegex)` for
`/^(.*?)\s*\|\s*n\.º\s*(\d+)\s*\|\s*Vol\.\s*(\d+)/i`:
the lazy leading group tries prefixes shortest-first; `.` does not match
line terminators.  Returns (group 1, group 2, group 3). -/
def headerLineMatchGo (acc : List Char) (s : List Char) :
    Option (List Char × List Char × List Char) :=
  match headerTailMatch s with
  | some (num, vol) => some (acc.reverse, num, vol)
  | none =>
    match s with
    | [] => none
    | c :: rest =>
      if c = '\n' ∨ c = '\r' then none
      else headerLineMatchGo (c :: acc) rest

def headerLineMatch (s : List Char) : Option (List Char × List Char × List Char) :=
  headerLineMatchGo [] s

/-- The month-name alternation of `monthsRegex`, as a case-insensitive
prefix matcher returning the remainder after the matched name. -/
def monthAltMatch (s : List Char) : Option (List Char) :=
  (ciStarts "janeiro".toList s).orElse fun _ =>
  (ciStarts "fevereiro".toList s).orElse fun _ =>
  (ciStarts "março".toList s).orElse fun _ =>
  (ciStarts "abril".toList s).orElse fun _ =>
  (ciStarts "maio".toList s).orElse fun _ =>
  (ciStarts "junho".toList s).orElse fun _ =>
  (ciStarts "julho".toList s).orElse fun _ =>
  (ciStarts "agosto".toList s).orElse fun _ =>
  (ciStarts "setembro".toList s).orElse fun _ =>
  (ciStarts "outubro".toList s).orElse fun _ =>
  (ciStarts "novembro".toList s).orElse fun _ =>
  (ciStarts "dezembro".toList s).orElse fun _ => none

/-- One or more whitespace characters (`\s+`), maximal munch; returns the
remainder. -/
def wsPlus (s : List Char) : Option (List Char) :=
  if (s.takeWhile isWs).isEmpty then none else some (s.dropWhile isWs)

/-- The optional connector `(?:de\s+)?`: the greedy engine first tries to
take `de` plus whitespace and falls back to the empty alternative when
the continuation `k` fails afterwards. -/
def optDe (s : List Char) (k : List Char → Option (List Char)) :
    Option (List Char) :=
  (match ciStarts "de".toList s with
   | some r1 =>
     match wsPlus r1 with
     | some r2 =>
       match k r2 with
       | some out => some out
       | none => k s
     | none => k s
   | none => k s)

/-- Attempt to match `dateRegex`
(`\d{1,2}\s+(?:de\s+)?<month>\s+(?:de\s+)?\d{4}`, case-insensitive)
anchored at the start of `s`; returns the remainder after the match.
The day quantifier `{1,2}` is greedy: two digits are preferred. -/
def dateMatchAt (s : List Char) : Option (List Char) :=
  let afterDay : List Char → Option (List Char) := fun r =>
    match wsPlus r with
    | none => none
    | some r1 =>
      optDe r1 fun r2 =>
        match monthAltMatch r2 with
        | none => none
        | some r3 =>
          match wsPlus r3 with
          | none => none
          | some r4 =>
            optDe r4 fun r5 =>
              let ds := r5.take 4
              if ds.length = 4 ∧ ds.all isDigitC then some (r5.drop 4) else none
  match s with
  | d1 :: d2 :: rest =>
    if isDigitC d1 then
      if isDigitC d2 then
        match afterDay rest with
        | some out => some out
        | none => afterDay (d2 :: rest)
      else afterDay (d2 :: rest)
    else none
  | [d1] => if isDigitC d1 then afterDay [] else none
  | [] => none

/-- `txt.match(dateRegex)`: leftmost match; returns the matched
substring (`match[0]`). -/
def dateSearchGo : List Char → Option (List Char)
  | [] => none
  | c :: rest =>
    match dateMatchAt (c :: rest) with
    | some rem => some ((c :: rest).take ((c :: rest).length - rem.length))
    | none => dateSearchGo rest

def dateSearch (s : List Char) : Option (List Char) :=
  dateSearchGo s

/-- The scan over the first 10 lines (parser.ts lines 252-266): on the
first header-pattern match the date text, number and volume are taken
from the match and scanning stops; otherwise the first bare date keeps
being remembered.  Returns the found date text and, when a header
matched, the captured number and volume. -/
def metaScan : Nat → List TextLine → List Char →
    List Char × Option (List Char × List Char)
  | 0, _, fdt => (fdt, none)
  | _ + 1, [], fdt => (fdt, none)
  | n + 1, l :: rest, fdt =>
    let txt := trimWs l.text
    match headerLineMatch txt with
    | some (g1, num, vol) => (trimWs g1, some (num, vol))
    | none =>
      let fdt' :=
        if fdt.isEmpty then
          match dateSearch txt with
          | some m => m
          | none => fdt
        else fdt
      metaScan n rest fdt'

/-- The downloaded-file metadata consumed by the engine (the relevant
fields of `DownloadedFile`). -/
structure FileInfo where
  year : List Char
  number : List Char
  deriving DecidableEq, Repr

/-- The result record of `extractGlobalMetadata`. -/
structure MetaResult where
  date : List Char
  reference : List Char
  deriving DecidableEq, Repr

/-- `extractGlobalMetadata` (parser.ts lines 239-283).  `today` stands
for the ambient current date used by `convertDateToISO` on unparsable
date text. -/
def extractGlobalMetadata (today : List Char) (lines : List TextLine)
    (file : FileInfo) : MetaResult :=
  let scan := metaScan 10 lines []
  let foundDateText := scan.1
  let foundNumber := match scan.2 with
    | some (num, _) => num
    | none => file.number
  let foundVolume := match scan.2 with
    | some (_, vol) => vol
    | none => []
  let dateStr :=
    if !foundDateText.isEmpty then convertDateToISO today foundDateText
    else file.year ++ "-01-01".toList
  let datePart :=
    if !foundDateText.isEmpty then
      let deStart := "de ".toList.isPrefixOf (foundDateText.map toLowerPT)
      ", ".toList ++ (if deStart then [] else "de ".toList) ++ foundDateText
    else ", de ".toList ++ file.year
  let volPart :=
    if !foundVolume.isEmpty then ", Vol. ".toList ++ foundVolume else []
  { date := dateStr
    reference := "BTE n.º ".toList ++ foundNumber ++ volPart ++ datePart }

/-!
## Step 3.3 of the source: `buildTree` (parser.ts lines 298-404)
-/

/-- `patterns.diploma`:
`/^(Portaria|Decreto-Lei|Despacho|Acordo|Contrato|Convenção|Decisão|Parecer|Aviso)\s+(n\.º|número)?/i`.
The trailing optional group always succeeds, so the test holds exactly
when a keyword prefix is followed by at least one whitespace
character. -/
def diplomaP (t : List Char) : Bool :=
  ["Portaria", "Decreto-Lei", "Despacho", "Acordo", "Contrato",
   "Convenção", "Decisão", "Parecer", "Aviso"].any fun kw =>
    match ciStarts kw.toList t with
    | some r => r.head?.any isWs
    | none => false

/-- The character class `[IVXLCDM\d]` under the `i` flag. -/
def isRomanC (c : Char) : Bool :=
  isDigitC c ||
    (['I', 'V', 'X', 'L', 'C', 'D', 'M'].any fun r => ciEqC c r)

/-- `patterns.structure`:
`/^(Capítulo|Secção|Anexo)\s+[IVXLCDM\d]+|^Preâmbulo/i`. -/
def structureP (t : List Char) : Bool :=
  (["Capítulo", "Secção", "Anexo"].any fun kw =>
    match ciStarts kw.toList t with
    | some r =>
      !(r.takeWhile isWs).isEmpty && (r.dropWhile isWs).head?.any isRomanC
    | none => false) ||
  (ciStarts "Preâmbulo".toList t).isSome

/-- `patterns.article`: `/^(Artigo|Cláusula)\s+\d+/i`. -/
def articleP (t : List Char) : Bool :=
  ["Artigo", "Cláusula"].any fun kw =>
    match ciStarts kw.toList t with
    | some r =>
      !(r.takeWhile isWs).isEmpty && (r.dropWhile isWs).head?.any isDigitC
    | none => false

/-- `/^\d+[\.\-]/` : an enumerated sub-item start. -/
def enumStartP (t : List Char) : Bool :=
  match t with
  | c :: _ =>
    isDigitC c &&
      match (t.dropWhile isDigitC).head? with
      | some d => d = '.' || d = '-'
      | none => false
  | [] => false

/-- `/^(Preâmbulo)/i`. -/
def prePrefixP (t : List Char) : Bool :=
  (ciStarts "Preâmbulo".toList t).isSome

/-- `/[.:;]$/` : the line ends in sentence punctuation. -/
def endsPunctP (t : List Char) : Bool :=
  match t.getLast? with
  | some c => c = '.' || c = ':' || c = ';'
  | none => false

/-- The `looksLikeTitle` criterion of parser.ts lines 339-347, evaluated
on the trimmed text of the candidate continuation line. -/
def looksLikeTitle (l : TextLine) : Bool :=
  let nextLine := trimWs l.text
  !nextLine.isEmpty &&
  nextLine.length < 250 &&
  !articleP nextLine &&
  !structureP nextLine &&
  !diplomaP nextLine &&
  !enumStartP nextLine &&
  !prePrefixP nextLine &&
  !endsPunctP nextLine

/-- The header-merging `while` loop of parser.ts lines 330-356: keep
appending the trimmed next line (space-joined) while it looks like part
of the title; returns the merged header and the unconsumed lines. -/
def mergeHeaderLoop (hdr : List Char) :
    List TextLine → List Char × List TextLine
  | [] => (hdr, [])
  | l :: rest =>
    if looksLikeTitle l then mergeHeaderLoop (hdr ++ ' ' :: trimWs l.text) rest
    else (hdr, l :: rest)

/-- Node kinds of the document tree. -/
inductive NType where
  | root
  | diploma
  | chapter
  | article
  deriving DecidableEq, Repr

/-- Nesting rank of each kind (root outermost, article innermost). -/
def kidx : NType → Nat
  | .root => 0
  | .diploma => 1
  | .chapter => 2
  | .article => 3

/-- A document node (`BteNode` of the source): the `header`, `text` and
`children` fields are optional in the TypeScript interface; children are
modelled as an always-present ordered list (the source initializes
`children: []` on every node it creates). -/
inductive BteNode where
  | mk (type : NType) (header : Option (List Char))
       (text : Option (List Char)) (children : List BteNode)

def BteNode.type : BteNode → NType
  | .mk t _ _ _ => t

def BteNode.header : BteNode → Option (List Char)
  | .mk _ h _ _ => h

def BteNode.text : BteNode → Option (List Char)
  | .mk _ _ x _ => x

def BteNode.children : BteNode → List BteNode
  | .mk _ _ _ cs => cs

/-- Append a finished child to a parent's children. -/
def attachChild (t p : BteNode) : BteNode :=
  .mk p.type p.header p.text (p.children ++ [t])

/-- The builder stack, top first.  In the source, `addChild` attaches a
new node to the stack top's `children` eagerly and pushes it; here the
attachment of each open node to its parent is deferred to the moment it
is popped, which produces the same tree with the same child order
because the stack is operated strictly last-in-first-out. -/
abbrev Stack := List BteNode

/-- One pop: the top is attached to the node below it. -/
def popOnce : Stack → Stack
  | t :: p :: rest => attachChild t p :: rest
  | st => st

/-- `popUntilType` (parser.ts lines 398-404): pop while the stack has
more than one node and its top is not of one of the wanted types.  The
fuel is instantiated with the stack length, which bounds the number of
pops. -/
def popUntilTypeN (types : List NType) : Nat → Stack → Stack
  | 0, st => st
  | n + 1, st =>
    match st with
    | t :: p :: rest =>
      if t.type ∈ types then t :: p :: rest
      else popUntilTypeN types n (attachChild t p :: rest)
    | _ => st

def popUntilType (types : List NType) (st : Stack) : Stack :=
  popUntilTypeN types st.length st

/-- Collapse the whole stack to its bottom node (performed implicitly by
the source when it returns `root`, whose children were attached
eagerly). -/
def finalizeGo : Nat → Stack → BteNode
  | _, [x] => x
  | 0, st => st.headD (.mk .root none none [])
  | n + 1, t :: p :: rest => finalizeGo n (attachChild t p :: rest)
  | _, [] => .mk .root none none []

def finalize (st : Stack) : BteNode :=
  finalizeGo st.length st

/-- `currentNode.text += (currentNode.text ? "\n" : "") + text` with the
JavaScript falsiness of `undefined` and of the empty string. -/
def appendBody (old : Option (List Char)) (text : List Char) : List Char :=
  match old with
  | none => text
  | some o => if o.isEmpty then text else o ++ '\n' :: text

/-- The main loop of `buildTree` (parser.ts lines 313-384).  Each
iteration consumes at least one line, so fuel equal to the number of
lines never runs out. -/
def buildGo : Nat → List TextLine → Stack → BteNode
  | 0, _, st => finalize st
  | _ + 1, [], st => finalize st
  | n + 1, line :: rest, st =>
    let text := trimWs line.text
    let matchedType : Option NType :=
      if diplomaP text then some .diploma
      else if structureP text then some .chapter
      else if articleP text then some .article
      else none
    match matchedType with
    | some ty =>
      let isStrictPreambulo := ciEq (trimWs text) "Preâmbulo".toList
      let merged :=
        if isStrictPreambulo then (text, rest) else mergeHeaderLoop text rest
      let newNode : BteNode :=
        .mk ty (some merged.1) (if ty = .article then some [] else none) []
      let st' : Stack :=
        match ty with
        | .diploma => [newNode, finalize st]
        | .chapter => newNode :: popUntilType [.diploma, .root] st
        | .article => newNode :: popUntilType [.chapter, .diploma, .root] st
        | .root => st
      buildGo n merged.2 st'
    | none =>
      let st' : Stack :=
        match st with
        | top :: below =>
          if top.type ≠ .root then
            BteNode.mk top.type top.header (some (appendBody top.text text))
              top.children :: below
          else st
        | [] => st
      buildGo n rest st'

/-- `buildTree` (parser.ts lines 298-386). -/
def buildTree (lines : List TextLine) : BteNode :=
  buildGo lines.length lines [.mk .root none none []]

/-!
## `cleanTreeText` (parser.ts lines 411-424): body-text normalization

The four `replace` calls plus the final `trim`, in source order:
1. `.replace(/(\p{L})\s+-\s+(\p{L})/gu, '$1$2')`
2. `.replace(/(\p{L})-\s*[\r\n]+\s*(\p{L})/gu, '$1$2')`
3. `.replace(/\n(?!\s*(?:\d+|[a-z])\s*[-–.)])/gi, ' ')`
4. `.replace(/\s{2,}/g, ' ')`
5. `.trim()`
-/

/-- `\p{L}` restricted to ASCII letters plus the accented letters of the
repository's Portuguese inputs. -/
def isLetterPT (c : Char) : Bool :=
  c.isAlpha ||
    ['á', 'à', 'â', 'ã', 'ç', 'é', 'ê', 'í', 'ó', 'ô', 'õ', 'ú',
     'Á', 'À', 'Â', 'Ã', 'Ç', 'É', 'Ê', 'Í', 'Ó', 'Ô', 'Õ', 'Ú'].contains c

/-- Attempt to match `\s+-\s+(\p{L})` (the part of pattern 1 after the
leading letter): both whitespace runs are non-empty and maximal.
Returns the trailing letter and the remainder after it. -/
def hyphenSplitTail (rest : List Char) : Option (Char × List Char) :=
  if (rest.takeWhile isWs).isEmpty then none
  else
    match rest.dropWhile isWs with
    | '-' :: r1 =>
      if (r1.takeWhile isWs).isEmpty then none
      else
        match r1.dropWhile isWs with
        | c2 :: r2 => if isLetterPT c2 then some (c2, r2) else none
        | [] => none
    | _ => none

/-- Pattern 1, global replacement by `$1$2`: scanning resumes after each
match (the emitted trailing letter is not rescanned, as with the
JavaScript `lastIndex` semantics). -/
def joinSplitGo : Nat → List Char → List Char
  | 0, l => l
  | _ + 1, [] => []
  | n + 1, c :: rest =>
    if isLetterPT c then
      match hyphenSplitTail rest with
      | some (c2, r) => c :: c2 :: joinSplitGo n r
      | none => c :: joinSplitGo n rest
    else c :: joinSplitGo n rest

def joinSplit (l : List Char) : List Char :=
  joinSplitGo l.length l

/-- Attempt to match `-\s*[\r\n]+\s*(\p{L})` (the part of pattern 2
after the leading letter): the whitespace between the hyphen and the
letter must contain at least one line terminator, and greediness makes
the match consume the whole run. -/
def hyphenWrapTail (rest : List Char) : Option (Char × List Char) :=
  match rest with
  | '-' :: r1 =>
    if (r1.takeWhile isWs).any fun c => c = '\r' || c = '\n' then
      match r1.dropWhile isWs with
      | c2 :: r2 => if isLetterPT c2 then some (c2, r2) else none
      | [] => none
    else none
  | _ => none

/-- Pattern 2, global replacement by `$1$2`. -/
def joinWrapGo : Nat → List Char → List Char
  | 0, l => l
  | _ + 1, [] => []
  | n + 1, c :: rest =>
    if isLetterPT c then
      match hyphenWrapTail rest with
      | some (c2, r) => c :: c2 :: joinWrapGo n r
      | none => c :: joinWrapGo n rest
    else c :: joinWrapGo n rest

def joinWrap (l : List Char) : List Char :=
  joinWrapGo l.length l

/-- Delimiters of the enumeration look-ahead `[-–.)]`. -/
def laDelims : List Char := ['-', '–', '.', ')']

/-- Is the first character one of the look-ahead delimiters? -/
def delimHead : List Char → Bool
  | d :: _ => laDelims.contains d
  | [] => false

/-- The look-ahead body `\s*(?:\d+|[a-z])\s*[-–.)]` under the `i` flag.
All quantified classes are disjoint from what must follow them, so the
existence of a match is decided by maximal-munch scanning. -/
def enumLA (v : List Char) : Bool :=
  match v.dropWhile isWs with
  | [] => false
  | c :: cs =>
    if isDigitC c then
      delimHead (((c :: cs).dropWhile isDigitC).dropWhile isWs)
    else if isAsciiAlphaC c then
      delimHead (cs.dropWhile isWs)
    else false

/-- Pattern 3: every `\n` whose right context does not satisfy the
enumeration look-ahead becomes a space (look-aheads are evaluated on the
original string). -/
def nlToSpace : List Char → List Char
  | [] => []
  | c :: rest =>
    (if c = '\n' && !enumLA rest then ' ' else c) :: nlToSpace rest

/-- Pattern 4: each maximal whitespace run of length at least two
becomes a single space (`\s{2,}` → `' '`); `pending` carries the first
character of the current run and whether the run has at least two
characters. -/
def collapseGo (pending : Option (Char × Bool)) : List Char → List Char
  | [] =>
    match pending with
    | none => []
    | some (c, multi) => [if multi then ' ' else c]
  | x :: rest =>
    if isWs x then
      match pending with
      | none => collapseGo (some (x, false)) rest
      | some (c, _) => collapseGo (some (c, true)) rest
    else
      (match pending with
       | none => []
       | some (c, multi) => [if multi then ' ' else c]) ++
        x :: collapseGo none rest

def collapseWs (l : List Char) : List Char :=
  collapseGo none l

/-- The full normalization sequence applied to one node's body text. -/
def normalizeText (l : List Char) : List Char :=
  trimWs (collapseWs (nlToSpace (joinWrap (joinSplit l))))

/-!
## Claim C8: noise-filter purity
-/

/-- C8: for every line sequence, `cleanNoise` returns a subsequence of
its input (retained lines keep their relative order), filtering twice
equals filtering once, and every removed line satisfies the documented
rejection predicate. -/
theorem cleanNoise_purity (lines : List TextLine) :
    (cleanNoise lines).Sublist lines ∧
    cleanNoise (cleanNoise lines) = cleanNoise lines ∧
    ∀ l ∈ lines, l ∉ cleanNoise lines → noiseReject (trimWs l.text) = true := by
  refine ⟨List.filter_sublist lines, ?_, ?_⟩
  · simp [cleanNoise, List.filter_filter]
  · intro l hl hnot
    cases hrej : noiseReject (trimWs l.text) with
    | true => rfl
    | false =>
      exact absurd (List.mem_filter.2 ⟨hl, by simp [hrej]⟩) hnot

/-- Witness for C8 at a concrete input: the bare page number `"42"` is
removed, and the theorem certifies it satisfies the rejection
predicate. -/
theorem cleanNoise_purity_witness :
    noiseReject (trimWs (TextLine.mk "42".toList 0 false 1).text) = true :=
  (cleanNoise_purity [TextLine.mk "42".toList 0 false 1]).2.2
    (TextLine.mk "42".toList 0 false 1) (by simp) (by decide)

/-!
## Claim C9: the reference string always starts with `"BTE n.º "`
-/

/-- C9: for any lines and any downloaded file, the reference built by
`extractGlobalMetadata` begins with the literal `"BTE n.º "` (the label
is the fixed constant `BTE`, not derived from the document type, which
the function does not even receive), so it has length at least 8. -/
theorem reference_starts_BTE (today : List Char) (lines : List TextLine)
    (file : FileInfo) :
    (extractGlobalMetadata today lines file).reference.take 8 =
      "BTE n.º ".toList ∧
    8 ≤ (extractGlobalMetadata today lines file).reference.length := by
  have hshape : ∃ rest, (extractGlobalMetadata today lines file).reference =
      "BTE n.º ".toList ++ rest := ⟨_, rfl⟩
  obtain ⟨rest, hr⟩ := hshape
  constructor
  · rw [hr]
    have h8 : ("BTE n.º ".toList).length = 8 := rfl
    rw [← h8, List.take_left]
  · rw [hr, List.length_append]
    have h8 : ("BTE n.º ".toList).length = 8 := rfl
    omega

/-!
## Claim C4: metadata extraction degrades to the declared-year default
-/

/-- If no line of the scanned window matches the header pattern or the
bare-date pattern, the scan returns the empty date text and no captured
number/volume. -/
theorem metaScan_none :
    ∀ (n : Nat) (lines : List TextLine),
      (∀ l ∈ lines.take n, headerLineMatch (trimWs l.text) = none ∧
        dateSearch (trimWs l.text) = none) →
      metaScan n lines [] = ([], none) := by
  intro n
  induction n with
  | zero => intro lines _; rfl
  | succ m ih =>
    intro lines h
    cases lines with
    | nil => rfl
    | cons l rest =>
      have hl := h l (by simp)
      have hrest : ∀ l' ∈ rest.take m, headerLineMatch (trimWs l'.text) = none ∧
          dateSearch (trimWs l'.text) = none := by
        intro l' hl'
        exact h l' (by simp [List.take_succ_cons]; right; exact hl')
      show metaScan (m + 1) (l :: rest) [] = ([], none)
      simp only [metaScan, hl.1, hl.2, List.isEmpty_nil, if_true]
      exact ih rest hrest

/-- C4: metadata extraction is a total function of its inputs (no
exception path exists in the embedding), and whenever no date text is
recoverable from the scanned 10-line window — no line matches the header
pattern and none contains a bare date — the produced date is the
declared-year default `<year>-01-01`. -/
theorem metadata_default_date (today : List Char) (lines : List TextLine)
    (file : FileInfo)
    (h : ∀ l ∈ lines.take 10, headerLineMatch (trimWs l.text) = none ∧
      dateSearch (trimWs l.text) = none) :
    (extractGlobalMetadata today lines file).date =
      file.year ++ "-01-01".toList := by
  have hscan := metaScan_none 10 lines h
  simp only [extractGlobalMetadata, hscan, List.isEmpty_nil, Bool.not_true,
    Bool.false_eq_true, if_false]

/-- Witness for C4: an empty document (no lines at all) yields the
default date built from the declared year 2024. -/
theorem metadata_default_date_witness :
    (extractGlobalMetadata "2026-10-11".toList []
      (FileInfo.mk "2024".toList "7".toList)).date =
      "2024".toList ++ "-01-01".toList :=
  metadata_default_date "2026-10-11".toList []
    (FileInfo.mk "2024".toList "7".toList) (by simp)

/-!
## Claim C7: header merging
-/

/-- C7: the header-merging loop appends each immediately following line
to the header exactly while that line satisfies the `looksLikeTitle`
criterion (non-empty, under 250 characters, matching none of the three
structural patterns, not an enumerated sub-item start, not the preamble
caption, not ending in sentence punctuation) — i.e. it consumes
precisely the longest such prefix of the remaining lines — and, in
particular, the diploma line `"Portaria n.º 123/2024"` followed by
`"de regulamentação do trabalho"` yields a single diploma node carrying
the merged header. -/
theorem header_merge_exact :
    (∀ (lines : List TextLine) (hdr : List Char),
      mergeHeaderLoop hdr lines =
        (hdr ++ (lines.takeWhile looksLikeTitle).flatMap
          (fun l => ' ' :: trimWs l.text),
         lines.dropWhile looksLikeTitle)) ∧
    buildTree
      [TextLine.mk "Portaria n.º 123/2024".toList 0 false 1,
       TextLine.mk "de regulamentação do trabalho".toList 0 false 1] =
      BteNode.mk .root none none
        [BteNode.mk .diploma
          (some "Portaria n.º 123/2024 de regulamentação do trabalho".toList)
          none []] := by
  constructor
  · intro lines
    induction lines with
    | nil => intro hdr; simp [mergeHeaderLoop]
    | cons l rest ih =>
      intro hdr
      cases h : looksLikeTitle l with
      | true =>
        simp only [mergeHeaderLoop, h, if_true, ih, List.takeWhile_cons,
          List.dropWhile_cons, List.flatMap_cons, List.append_assoc]
      | false =>
        simp [mergeHeaderLoop, h, List.takeWhile_cons, List.dropWhile_cons]
  · rfl

/-!
## Claim C3: the end-of-line flag

The grouping loop of `extractTextFromPdf` captures `hasEol` from the
decoder (parser.ts line 165) but never reads it again: line breaks are
decided solely by the `y`-distance tolerance.
-/

/-- Counterexample to C3 as stated: the first run of the page signals an
end of line (`hasEol = true`), yet the reconstructor does not flush the
buffer there — both runs share one `y`, so they are joined into the
single logical line `"A B"` instead of ending the first line at the
flagged run. -/
theorem eol_flag_cex :
    extractTextFromPdf
      [[RunItem.mk "A".toList 0 0 true, RunItem.mk "B".toList 0 1 false]] =
      [TextLine.mk "A B".toList 0 false 1] ∧
    extractTextFromPdf
      [[RunItem.mk "A".toList 0 0 true, RunItem.mk "B".toList 0 1 false]] ≠
      [TextLine.mk "A".toList 0 false 1, TextLine.mk "B".toList 0 false 1] := by
  constructor
  · decide
  · decide

/-- Reassignment of every run's end-of-line flag by an arbitrary
function. -/
def setEol (g : RunItem → Bool) (r : RunItem) : RunItem :=
  RunItem.mk r.text r.y r.x (g r)

theorem runLe_setEol (g : RunItem → Bool) (a b : RunItem) :
    runLe (setEol g a) (setEol g b) = runLe a b := rfl

theorem insertRun_setEol (g : RunItem → Bool) (a : RunItem) :
    ∀ l : List RunItem,
      insertRun (setEol g a) (l.map (setEol g)) =
        (insertRun a l).map (setEol g) := by
  intro l
  induction l with
  | nil => rfl
  | cons b rest ih =>
    simp only [List.map_cons, insertRun, runLe_setEol]
    by_cases h : runLe a b = true
    · simp [h]
    · simp [h, ih]

theorem sortRuns_setEol (g : RunItem → Bool) :
    ∀ l : List RunItem,
      sortRuns (l.map (setEol g)) = (sortRuns l).map (setEol g) := by
  intro l
  induction l with
  | nil => rfl
  | cons a rest ih =>
    simp only [List.map_cons, sortRuns, ih, insertRun_setEol]

theorem groupGo_setEol (g : RunItem → Bool) :
    ∀ (l : List RunItem) (page : Nat) (cur : List Char) (lastY : Int),
      groupGo page cur lastY (l.map (setEol g)) = groupGo page cur lastY l := by
  intro l
  induction l with
  | nil => intro page cur lastY; rfl
  | cons r rest ih =>
    intro page cur lastY
    simp only [List.map_cons, groupGo, setEol, ih]

/-- C3 amended: the end-of-line flags of the runs are ignored by line
reconstruction — reassigning every run's flag by an arbitrary function
leaves the produced logical-line sequence unchanged; breaks are decided
only by the `y` tolerance. -/
theorem eol_flag_irrelevant (g : RunItem → Bool) (pages : List (List RunItem)) :
    extractTextFromPdf (pages.map fun p => p.map (setEol g)) =
      extractTextFromPdf pages := by
  suffices h : ∀ (i : Nat) (ps : List (List RunItem)),
      extractTextFromPdf.go i (ps.map fun p => p.map (setEol g)) =
        extractTextFromPdf.go i ps by
    exact h 1 pages
  intro i ps
  induction ps generalizing i with
  | nil => rfl
  | cons p rest ih =>
    simp only [List.map_cons, extractTextFromPdf.go, pageLines,
      sortRuns_setEol, groupGo_setEol, ih]

/-!
## Claim C2: determinism of line reconstruction under input reordering

The sort comparator's `y`-tolerance of 2 is not transitive, so the
comparator is not a linear order: on batches whose `y` values form a
chain of small steps, or whose runs tie on both coordinates, the sorted
order (and hence the produced line sequence) depends on the input
order. -/

/-- Counterexample to C2 as stated: two pairs of per-page batches, each
pair a permutation of the same multiset of runs, on which the
reconstructor produces different logical-line sequences.  The first pair
is a `y` chain 0, 2, 4 (each adjacent pair within the tolerance, the
extremes outside it); the second pair is two runs with identical
coordinates. -/
theorem reconstruction_order_cex :
    (List.Perm
      [RunItem.mk "A".toList 0 0 false, RunItem.mk "B".toList 2 1 false,
       RunItem.mk "C".toList 4 2 false]
      [RunItem.mk "C".toList 4 2 false, RunItem.mk "A".toList 0 0 false,
       RunItem.mk "B".toList 2 1 false]) ∧
    extractTextFromPdf
      [[RunItem.mk "A".toList 0 0 false, RunItem.mk "B".toList 2 1 false,
        RunItem.mk "C".toList 4 2 false]] ≠
    extractTextFromPdf
      [[RunItem.mk "C".toList 4 2 false, RunItem.mk "A".toList 0 0 false,
        RunItem.mk "B".toList 2 1 false]] ∧
    (List.Perm
      [RunItem.mk "A".toList 0 0 false, RunItem.mk "B".toList 0 0 false]
      [RunItem.mk "B".toList 0 0 false, RunItem.mk "A".toList 0 0 false]) ∧
    extractTextFromPdf
      [[RunItem.mk "A".toList 0 0 false, RunItem.mk "B".toList 0 0 false]] ≠
    extractTextFromPdf
      [[RunItem.mk "B".toList 0 0 false, RunItem.mk "A".toList 0 0 false]] := by
  refine ⟨by decide, by decide, by decide, by decide⟩

/-- Two runs are separated when their `y` values are either equal or
more than the sort tolerance apart, and coordinate ties only happen
between equal runs. -/
def goodPair (a b : RunItem) : Prop :=
  (a.y = b.y ∨ (a.y - b.y).natAbs > 2) ∧ (a.y = b.y → a.x = b.x → a = b)

instance (a b : RunItem) : Decidable (goodPair a b) := by
  unfold goodPair; infer_instance

/-- A batch on which the sort comparator is a linear order. -/
def GoodBatch (l : List RunItem) : Prop :=
  ∀ a ∈ l, ∀ b ∈ l, goodPair a b

instance (l : List RunItem) : Decidable (GoodBatch l) := by
  unfold GoodBatch; infer_instance

theorem runLe_iff (a b : RunItem) : runLe a b = true ↔
    ((a.y - b.y).natAbs > 2 ∧ b.y ≤ a.y) ∨
    ((a.y - b.y).natAbs ≤ 2 ∧ a.x ≤ b.x) := by
  unfold runLe
  by_cases h : (a.y - b.y).natAbs > 2
  · rw [if_pos h]
    simp only [decide_eq_true_eq]
    constructor
    · intro hh; exact Or.inl ⟨h, hh⟩
    · rintro (⟨-, hh⟩ | ⟨hh, -⟩)
      · exact hh
      · omega
  · rw [if_neg h]
    simp only [decide_eq_true_eq]
    constructor
    · intro hh
      exact Or.inr ⟨by omega, hh⟩
    · rintro (⟨hh, -⟩ | ⟨-, hh⟩)
      · omega
      · exact hh

theorem runLe_total (a b : RunItem) : runLe a b = true ∨ runLe b a = true := by
  rw [runLe_iff, runLe_iff]
  omega

theorem runLe_antisymm {a b : RunItem} (hab : runLe a b = true)
    (hba : runLe b a = true) (g : goodPair a b) : a = b := by
  rw [runLe_iff] at hab hba
  rcases g with ⟨hsep, heq⟩
  rcases hsep with hy | hy
  · exact heq hy (by omega)
  · omega

theorem runLe_trans {a b c : RunItem} (hab : runLe a b = true)
    (hbc : runLe b c = true) (gab : goodPair a b) (gbc : goodPair b c)
    (gac : goodPair a c) : runLe a c = true := by
  rw [runLe_iff] at hab hbc ⊢
  rcases gab with ⟨hab', -⟩
  rcases gbc with ⟨hbc', -⟩
  rcases gac with ⟨hac', -⟩
  omega

theorem insertRun_perm (a : RunItem) :
    ∀ l : List RunItem, List.Perm (insertRun a l) (a :: l) := by
  intro l
  induction l with
  | nil => exact List.Perm.refl _
  | cons b rest ih =>
    simp only [insertRun]
    by_cases h : runLe a b = true
    · simp [h]
    · simp only [h, if_false]
      exact (ih.cons b).trans (List.Perm.swap a b rest)

theorem sortRuns_perm : ∀ l : List RunItem, List.Perm (sortRuns l) l := by
  intro l
  induction l with
  | nil => exact List.Perm.refl _
  | cons a rest ih =>
    exact (insertRun_perm a (sortRuns rest)).trans (ih.cons a)

/-- Sortedness predicate for the comparator. -/
def RunSorted (l : List RunItem) : Prop :=
  List.Pairwise (fun a b => runLe a b = true) l

theorem insertRun_pairwise (a : RunItem) :
    ∀ l : List RunItem, RunSorted l →
      (∀ x ∈ a :: l, ∀ y ∈ a :: l, goodPair x y) →
      RunSorted (insertRun a l) := by
  intro l
  induction l with
  | nil => intro _ _; exact List.pairwise_singleton _ a
  | cons b rest ih =>
    intro hs hg
    simp only [insertRun]
    by_cases h : runLe a b = true
    · simp only [h, if_true]
      refine List.Pairwise.cons ?_ hs
      intro x hx
      rcases List.mem_cons.1 hx with rfl | hx'
      · exact h
      · have hbx : runLe b x = true := List.rel_of_pairwise_cons hs hx'
        exact runLe_trans h hbx
          (hg a (by simp) b (by simp))
          (hg b (by simp) x (by simp [hx']))
          (hg a (by simp) x (by simp [hx']))
    · simp only [h, if_false]
      have hba : runLe b a = true := (runLe_total a b).resolve_left h
      refine List.Pairwise.cons ?_ ?_
      · intro x hx
        have hx' := (insertRun_perm a rest).mem_iff.1 hx
        rcases List.mem_cons.1 hx' with rfl | hx''
        · exact hba
        · exact List.rel_of_pairwise_cons hs hx''
      · refine ih (List.Pairwise.of_cons hs) ?_
        intro x hx y hy
        have hx' : x ∈ a :: b :: rest := by
          rcases List.mem_cons.1 hx with rfl | hx2
          · simp
          · simp [hx2]
        have hy' : y ∈ a :: b :: rest := by
          rcases List.mem_cons.1 hy with rfl | hy2
          · simp
          · simp [hy2]
        exact hg x hx' y hy'

theorem sortRuns_pairwise :
    ∀ l : List RunItem, GoodBatch l → RunSorted (sortRuns l) := by
  intro l
  induction l with
  | nil => intro _; exact List.Pairwise.nil
  | cons a rest ih =>
    intro hg
    refine insertRun_pairwise a (sortRuns rest)
      (ih fun x hx y hy => hg x (by simp [hx]) y (by simp [hy])) ?_
    intro x hx y hy
    have hmem : ∀ z, z ∈ a :: sortRuns rest → z ∈ a :: rest := by
      intro z hz
      rcases List.mem_cons.1 hz with rfl | hz'
      · simp
      · simp [(sortRuns_perm rest).mem_iff.1 hz']
    exact hg x (hmem x hx) y (hmem y hy)

/-- Two sorted permutations of a good batch are equal. -/
theorem sorted_perm_eq :
    ∀ l1 l2 : List RunItem, List.Perm l1 l2 → RunSorted l1 → RunSorted l2 →
      (∀ a ∈ l1, ∀ b ∈ l1, goodPair a b) → l1 = l2 := by
  intro l1
  induction l1 with
  | nil =>
    intro l2 hp _ _ _
    exact (hp.symm.eq_nil).symm
  | cons a t ih =>
    intro l2 hp hs1 hs2 hg
    cases l2 with
    | nil => exact absurd hp.eq_nil (by simp)
    | cons b t2 =>
      by_cases hab : a = b
      · subst hab
        have ht : List.Perm t t2 := hp.cons_inv
        have := ih t2 ht (List.Pairwise.of_cons hs1) (List.Pairwise.of_cons hs2)
          (fun x hx y hy => hg x (by simp [hx]) y (by simp [hy]))
        rw [this]
      · exfalso
        have hbmem : b ∈ a :: t := hp.symm.subset (by simp)
        have hbt : b ∈ t := by
          rcases List.mem_cons.1 hbmem with h | h
          · exact absurd h.symm hab
          · exact h
        have hamem : a ∈ b :: t2 := hp.subset (by simp)
        have hat2 : a ∈ t2 := by
          rcases List.mem_cons.1 hamem with h | h
          · exact absurd h hab
          · exact h
        have h1 : runLe a b = true := List.rel_of_pairwise_cons hs1 hbt
        have h2 : runLe b a = true := List.rel_of_pairwise_cons hs2 hat2
        exact hab (runLe_antisymm h1 h2 (hg a (by simp) b hbmem))

theorem sortRuns_eq_of_perm {l1 l2 : List RunItem} (hp : List.Perm l1 l2)
    (hg : GoodBatch l1) : sortRuns l1 = sortRuns l2 := by
  have hg2 : GoodBatch l2 :=
    fun x hx y hy => hg x (hp.symm.subset hx) y (hp.symm.subset hy)
  refine sorted_perm_eq (sortRuns l1) (sortRuns l2)
    ((sortRuns_perm l1).trans (hp.trans (sortRuns_perm l2).symm))
    (sortRuns_pairwise l1 hg) (sortRuns_pairwise l2 hg2) ?_
  intro x hx y hy
  exact hg x ((sortRuns_perm l1).subset hx) y ((sortRuns_perm l1).subset hy)

/-- C2 amended: line reconstruction is deterministic under reordering of
the per-page run batches whenever each batch is `y`-separated (any two
of its runs have equal `y` or `y` more than the sort tolerance 2 apart)
and coordinate ties only occur between equal runs.  Without that
hypothesis the comparator is not an order and the output may depend on
the input order (see the counterexample). -/
theorem reconstruction_deterministic (pages1 pages2 : List (List RunItem))
    (hperm : List.Forall₂ List.Perm pages1 pages2)
    (hgood : ∀ p ∈ pages1, GoodBatch p) :
    extractTextFromPdf pages1 = extractTextFromPdf pages2 := by
  suffices h : ∀ (i : Nat) (ps1 ps2 : List (List RunItem)),
      List.Forall₂ List.Perm ps1 ps2 → (∀ p ∈ ps1, GoodBatch p) →
      extractTextFromPdf.go i ps1 = extractTextFromPdf.go i ps2 by
    exact h 1 pages1 pages2 hperm hgood
  intro i ps1 ps2 hf
  induction hf generalizing i with
  | nil => intro _; rfl
  | cons hp htail ih =>
    intro hg
    simp only [extractTextFromPdf.go, pageLines]
    rw [sortRuns_eq_of_perm hp (hg _ (by simp)), ih (i + 1)]
    intro p hmem
    exact hg p (by simp [hmem])

/-- Witness for the amended C2: two orderings of a well-separated batch
produce the same line sequence. -/
theorem reconstruction_deterministic_witness :
    extractTextFromPdf
      [[RunItem.mk "A".toList 10 0 false, RunItem.mk "B".toList 0 0 false]] =
    extractTextFromPdf
      [[RunItem.mk "B".toList 0 0 false, RunItem.mk "A".toList 10 0 false]] :=
  reconstruction_deterministic _ _
    (List.Forall₂.cons (by decide) List.Forall₂.nil)
    (by
      intro p hp
      simp only [List.mem_singleton] at hp
      subst hp
      decide)

/-!
## Claims C5, C6, C10: invariants of the trees produced by `buildTree`

The builder stack is always a strictly nested chain
`root (⊃ diploma) (⊃ chapter) (⊃ article)` with the root frame at the
bottom, which is captured by the inductive invariant `InvStack` below
and preserved by every operation of the builder loop.
-/

/-- Every edge of the tree strictly increases the nesting rank
root < diploma < chapter < article. -/
inductive EdgesGood : BteNode → Prop
  | mk (t : NType) (h x : Option (List Char)) (cs : List BteNode) :
      (∀ c ∈ cs, kidx t < kidx c.type) → (∀ c ∈ cs, EdgesGood c) →
      EdgesGood (.mk t h x cs)

/-- Every article node of the tree carries a defined (possibly empty)
body text. -/
inductive ArtText : BteNode → Prop
  | mk (t : NType) (h x : Option (List Char)) (cs : List BteNode) :
      (t = .article → x.isSome) → (∀ c ∈ cs, ArtText c) →
      ArtText (.mk t h x cs)

/-- The tree has height at most `n` levels. -/
inductive HeightLE : Nat → BteNode → Prop
  | mk (n : Nat) (t : NType) (h x : Option (List Char)) (cs : List BteNode) :
      (∀ c ∈ cs, HeightLE n c) → HeightLE (n + 1) (.mk t h x cs)

theorem EdgesGood.children_lt {nd : BteNode} (hg : EdgesGood nd) :
    ∀ c ∈ nd.children, kidx nd.type < kidx c.type := by
  cases hg with
  | mk t h x cs hlt _ => exact hlt

theorem EdgesGood.children_good {nd : BteNode} (hg : EdgesGood nd) :
    ∀ c ∈ nd.children, EdgesGood c := by
  cases hg with
  | mk t h x cs _ hgs => exact hgs

theorem ArtText.children_art {nd : BteNode} (ha : ArtText nd) :
    ∀ c ∈ nd.children, ArtText c := by
  cases ha with
  | mk t h x cs _ has => exact has

/-- The stack invariant of the builder: the bottom frame is the root
frame (kind `root`, no body text), every frame above it has a kind of
strictly greater rank than the frame below it and is not `root`, and
every frame is a well-nested tree with well-texted articles. -/
inductive InvStack : Stack → Prop
  | single (f : BteNode) :
      f.type = .root → f.text = none → EdgesGood f → ArtText f →
      InvStack [f]
  | push (f p : BteNode) (rest : Stack) :
      InvStack (p :: rest) → kidx p.type < kidx f.type → f.type ≠ .root →
      EdgesGood f → ArtText f → InvStack (f :: p :: rest)

theorem InvStack.head_edges {f : BteNode} {tl : Stack}
    (h : InvStack (f :: tl)) : EdgesGood f := by
  cases h with
  | single _ _ _ hg _ => exact hg
  | push _ _ _ _ _ _ hg _ => exact hg

theorem InvStack.head_art {f : BteNode} {tl : Stack}
    (h : InvStack (f :: tl)) : ArtText f := by
  cases h with
  | single _ _ _ _ ha => exact ha
  | push _ _ _ _ _ _ _ ha => exact ha

theorem InvStack.nonempty {st : Stack} (h : InvStack st) : st ≠ [] := by
  cases h <;> simp

theorem attachChild_type (t p : BteNode) : (attachChild t p).type = p.type := by
  cases p; rfl

theorem attachChild_text (t p : BteNode) : (attachChild t p).text = p.text := by
  cases p; rfl

theorem edgesGood_attach {t p : BteNode} (hp : EdgesGood p) (ht : EdgesGood t)
    (hk : kidx p.type < kidx t.type) : EdgesGood (attachChild t p) := by
  cases p with
  | mk tp hh hx cs =>
    cases hp with
    | mk _ _ _ _ hlt hgs =>
      show EdgesGood (.mk tp hh hx (cs ++ [t]))
      refine EdgesGood.mk tp hh hx (cs ++ [t]) ?_ ?_
      · intro c hc
        rcases List.mem_append.1 hc with hc | hc
        · exact hlt c hc
        · rw [List.mem_singleton.1 hc]
          exact hk
      · intro c hc
        rcases List.mem_append.1 hc with hc | hc
        · exact hgs c hc
        · rw [List.mem_singleton.1 hc]
          exact ht

theorem artText_attach {t p : BteNode} (hp : ArtText p) (ht : ArtText t) :
    ArtText (attachChild t p) := by
  cases p with
  | mk tp hh hx cs =>
    cases hp with
    | mk _ _ _ _ hart has =>
      show ArtText (.mk tp hh hx (cs ++ [t]))
      refine ArtText.mk tp hh hx (cs ++ [t]) hart ?_
      intro c hc
      rcases List.mem_append.1 hc with hc | hc
      · exact has c hc
      · rw [List.mem_singleton.1 hc]
        exact ht

/-- Attaching the top frame to the frame below preserves the
invariant. -/
theorem inv_attach {t p : BteNode} {rest : Stack}
    (h : InvStack (t :: p :: rest)) : InvStack (attachChild t p :: rest) := by
  cases h with
  | push _ _ _ hp hk _ hg ha =>
    have hE : EdgesGood (attachChild t p) :=
      edgesGood_attach hp.head_edges hg hk
    have hA : ArtText (attachChild t p) := artText_attach hp.head_art ha
    cases hp with
    | single _ hroot hnone _ _ =>
      exact InvStack.single _ ((attachChild_type t p).trans hroot)
        ((attachChild_text t p).trans hnone) hE hA
    | push _ q rest' hq hkq hne _ _ =>
      refine InvStack.push _ q rest' hq ?_ ?_ hE hA
      · rw [attachChild_type]
        exact hkq
      · rw [attachChild_type]
        exact hne

/-- `popUntilType` preserves the invariant and, when `root` is among the
wanted types and the fuel covers the stack, stops with a top frame of a
wanted type. -/
theorem popUntil_inv_top (types : List NType) (hroot : NType.root ∈ types) :
    ∀ (n : Nat) (st : Stack), InvStack st → st.length ≤ n + 1 →
      InvStack (popUntilTypeN types n st) ∧
      ∃ f tl, popUntilTypeN types n st = f :: tl ∧ f.type ∈ types := by
  intro n
  induction n with
  | zero =>
    intro st hInv hlen
    cases st with
    | nil => exact absurd rfl hInv.nonempty
    | cons f tl =>
      cases tl with
      | nil =>
        have hf : f.type = .root := by
          cases hInv with
          | single _ h _ _ _ => exact h
        exact ⟨hInv, f, [], rfl, by rw [hf]; exact hroot⟩
      | cons g tl' => simp at hlen
  | succ m ih =>
    intro st hInv hlen
    cases st with
    | nil => exact absurd rfl hInv.nonempty
    | cons t tl =>
      cases tl with
      | nil =>
        have hf : t.type = .root := by
          cases hInv with
          | single _ h _ _ _ => exact h
        refine ⟨hInv, t, [], ?_, by rw [hf]; exact hroot⟩
        rfl
      | cons p rest =>
        show InvStack (popUntilTypeN types (m + 1) (t :: p :: rest)) ∧ _
        by_cases hmem : t.type ∈ types
        · simp only [popUntilTypeN, if_pos hmem]
          exact ⟨hInv, t, p :: rest, rfl, hmem⟩
        · simp only [popUntilTypeN, if_neg hmem]
          refine ih (attachChild t p :: rest) (inv_attach hInv) ?_
          simp only [List.length_cons] at hlen ⊢
          omega

/-- `finalize` of an invariant stack is a root node, has no body text,
and is a well-nested tree with well-texted articles. -/
theorem finalize_good :
    ∀ (n : Nat) (st : Stack), InvStack st → st.length ≤ n + 1 →
      (finalizeGo n st).type = .root ∧ (finalizeGo n st).text = none ∧
      EdgesGood (finalizeGo n st) ∧ ArtText (finalizeGo n st) := by
  intro n
  induction n with
  | zero =>
    intro st hInv hlen
    cases st with
    | nil => exact absurd rfl hInv.nonempty
    | cons f tl =>
      cases tl with
      | nil =>
        cases hInv with
        | single _ h1 h2 h3 h4 => exact ⟨h1, h2, h3, h4⟩
      | cons g tl' => simp at hlen
  | succ m ih =>
    intro st hInv hlen
    cases st with
    | nil => exact absurd rfl hInv.nonempty
    | cons t tl =>
      cases tl with
      | nil =>
        cases hInv with
        | single _ h1 h2 h3 h4 => exact ⟨h1, h2, h3, h4⟩
      | cons p rest =>
        show (finalizeGo (m + 1) (t :: p :: rest)).type = .root ∧ _
        have : finalizeGo (m + 1) (t :: p :: rest) =
            finalizeGo m (attachChild t p :: rest) := rfl
        rw [this]
        refine ih (attachChild t p :: rest) (inv_attach hInv) ?_
        simp only [List.length_cons] at hlen ⊢
        omega

theorem finalize_good' {st : Stack} (hInv : InvStack st) :
    (finalize st).type = .root ∧ (finalize st).text = none ∧
    EdgesGood (finalize st) ∧ ArtText (finalize st) :=
  finalize_good st.length st hInv (by omega)

/-- The freshly created node of a structural match is well-formed. -/
theorem newNode_good (ty : NType) (hdr : List Char) :
    EdgesGood (BteNode.mk ty (some hdr)
      (if ty = .article then some [] else none) []) ∧
    ArtText (BteNode.mk ty (some hdr)
      (if ty = .article then some [] else none) []) := by
  constructor
  · exact EdgesGood.mk ty (some hdr) _ [] (by simp) (by simp)
  · refine ArtText.mk ty (some hdr) _ [] ?_ (by simp)
    intro h
    rw [if_pos h]
    rfl

/-- Opening a diploma resets the stack to the collapsed root and the new
node. -/
theorem inv_step_diploma {st : Stack} (hInv : InvStack st) (hdr : List Char) :
    InvStack [BteNode.mk .diploma (some hdr)
      (if NType.diploma = .article then some [] else none) [], finalize st] := by
  have hfin := finalize_good' hInv
  refine InvStack.push _ (finalize st) [] ?_ ?_ (by simp [BteNode.type]) ?_ ?_
  · exact InvStack.single _ hfin.1 hfin.2.1 hfin.2.2.1 hfin.2.2.2
  · rw [hfin.1]
    simp [BteNode.type, kidx]
  · exact (newNode_good .diploma hdr).1
  · exact (newNode_good .diploma hdr).2

/-- Opening a chapter pops to a diploma or the root and pushes. -/
theorem inv_step_chapter {st : Stack} (hInv : InvStack st) (hdr : List Char) :
    InvStack (BteNode.mk .chapter (some hdr)
      (if NType.chapter = .article then some [] else none) [] ::
        popUntilType [.diploma, .root] st) := by
  obtain ⟨hInv', f, tl, heq, hmem⟩ :=
    popUntil_inv_top [.diploma, .root] (by simp) st.length st hInv (by omega)
  show InvStack (_ :: popUntilTypeN [.diploma, .root] st.length st)
  rw [heq]
  rw [heq] at hInv'
  refine InvStack.push _ f tl hInv' ?_ (by simp [BteNode.type]) ?_ ?_
  · rcases List.mem_pair.1 hmem with h | h <;> rw [h] <;>
      simp [BteNode.type, kidx]
  · exact (newNode_good .chapter hdr).1
  · exact (newNode_good .chapter hdr).2

/-- Opening an article pops to a chapter, a diploma or the root and
pushes. -/
theorem inv_step_article {st : Stack} (hInv : InvStack st) (hdr : List Char) :
    InvStack (BteNode.mk .article (some hdr)
      (if NType.article = .article then some [] else none) [] ::
        popUntilType [.chapter, .diploma, .root] st) := by
  obtain ⟨hInv', f, tl, heq, hmem⟩ :=
    popUntil_inv_top [.chapter, .diploma, .root] (by simp) st.length st hInv
      (by omega)
  show InvStack (_ :: popUntilTypeN [.chapter, .diploma, .root] st.length st)
  rw [heq]
  rw [heq] at hInv'
  refine InvStack.push _ f tl hInv' ?_ (by simp [BteNode.type]) ?_ ?_
  · have : f.type = .chapter ∨ f.type = .diploma ∨ f.type = .root := by
      simpa using hmem
    rcases this with h | h | h <;> rw [h] <;>
      simp [BteNode.type, kidx]
  · exact (newNode_good .article hdr).1
  · exact (newNode_good .article hdr).2

/-- Appending body text to the stack top (skipped on the root frame)
preserves the invariant. -/
theorem inv_step_body {top : BteNode} {below : Stack}
    (h : InvStack (top :: below)) (text : List Char) :
    InvStack (if top.type ≠ .root then
      BteNode.mk top.type top.header (some (appendBody top.text text))
        top.children :: below
      else top :: below) := by
  by_cases hr : top.type = .root
  · rw [if_neg (by simp [hr])]
    exact h
  · rw [if_pos hr]
    cases h with
    | single _ h1 _ _ _ => exact absurd h1 hr
    | push _ p rest hp hk hne hg ha =>
      have hg' : EdgesGood (BteNode.mk top.type top.header
          (some (appendBody top.text text)) top.children) := by
        cases top with
        | mk tt hh xx cs =>
          cases hg with
          | mk _ _ _ _ hlt hgs => exact EdgesGood.mk _ _ _ _ hlt hgs
      have ha' : ArtText (BteNode.mk top.type top.header
          (some (appendBody top.text text)) top.children) := by
        cases top with
        | mk tt hh xx cs =>
          cases ha with
          | mk _ _ _ _ _ has => exact ArtText.mk _ _ _ _ (fun _ => rfl) has
      exact InvStack.push _ p rest hp hk hne hg' ha'

/-- The core invariant argument: whatever tree `buildGo` returns from an
invariant stack is a root node without body text, strictly nested, and
with every article carrying a defined body text. -/
theorem buildGo_good :
    ∀ (fuel : Nat) (lines : List TextLine) (st : Stack), InvStack st →
      (buildGo fuel lines st).type = .root ∧
      (buildGo fuel lines st).text = none ∧
      EdgesGood (buildGo fuel lines st) ∧ ArtText (buildGo fuel lines st) := by
  intro fuel
  induction fuel with
  | zero => intro lines st hInv; exact finalize_good' hInv
  | succ m ih =>
    intro lines st hInv
    cases lines with
    | nil => exact finalize_good' hInv
    | cons line rest =>
      show (buildGo (m + 1) (line :: rest) st).type = .root ∧ _
      simp only [buildGo]
      by_cases hd : diplomaP (trimWs line.text) = true
      · rw [if_pos hd]
        exact ih _ _ (inv_step_diploma hInv _)
      · rw [if_neg hd]
        by_cases hs : structureP (trimWs line.text) = true
        · rw [if_pos hs]
          exact ih _ _ (inv_step_chapter hInv _)
        · rw [if_neg hs]
          by_cases ha : articleP (trimWs line.text) = true
          · rw [if_pos ha]
            exact ih _ _ (inv_step_article hInv _)
          · rw [if_neg ha]
            cases st with
            | nil => exact absurd rfl hInv.nonempty
            | cons top below => exact ih _ _ (inv_step_body hInv _)

theorem inv_initial : InvStack [BteNode.mk .root none none []] :=
  InvStack.single _ rfl rfl
    (EdgesGood.mk _ _ _ _ (by simp) (by simp))
    (ArtText.mk _ _ _ _ (by intro h; cases h) (by simp))

theorem buildTree_good (lines : List TextLine) :
    (buildTree lines).type = .root ∧ (buildTree lines).text = none ∧
    EdgesGood (buildTree lines) ∧ ArtText (buildTree lines) :=
  buildGo_good lines.length lines _ inv_initial

theorem kidx_le3 (t : NType) : kidx t ≤ 3 := by
  cases t <;> decide

theorem heightLE_mono :
    ∀ {n : Nat} {nd : BteNode}, HeightLE n nd → ∀ m, n ≤ m → HeightLE m nd := by
  intro n nd h
  induction h with
  | mk k t hh x cs hcs ih =>
    intro m hm
    cases m with
    | zero => omega
    | succ m' =>
      refine HeightLE.mk m' t hh x cs ?_
      intro c hc
      exact ih c hc m' (by omega)

/-- Strict rank increase along edges bounds the height by the rank
head-room. -/
theorem edges_height :
    ∀ {nd : BteNode}, EdgesGood nd → HeightLE (4 - kidx nd.type) nd := by
  intro nd hg
  induction hg with
  | mk t h x cs hlt hgs ih =>
    have hstep : ∀ c ∈ cs, HeightLE (3 - kidx t) c := by
      intro c hc
      refine heightLE_mono (ih c hc) _ ?_
      have h1 := hlt c hc
      have h2 : kidx c.type ≤ 3 := kidx_le3 _
      omega
    have hmk : HeightLE ((3 - kidx t) + 1) (.mk t h x cs) :=
      HeightLE.mk _ t h x cs hstep
    have heq : (3 - kidx t) + 1 = 4 - kidx (BteNode.mk t h x cs).type := by
      have := kidx_le3 t
      simp only [BteNode.type]
      omega
    rw [← heq]
    exact hmk

/-- C10: in every tree `buildTree` produces, node kinds strictly
increase in the order root < diploma < chapter < article along every
edge (so each kind appears at most once on any root-to-leaf path), and
the tree has at most 4 levels. -/
theorem tree_strict_nesting (lines : List TextLine) :
    EdgesGood (buildTree lines) ∧ HeightLE 4 (buildTree lines) := by
  have hg := (buildTree_good lines).2.2.1
  refine ⟨hg, ?_⟩
  have hh := edges_height hg
  rw [(buildTree_good lines).1] at hh
  exact hh

/-- The parent-kind discipline of claim C5 for one edge. -/
def parentAllowed (p c : NType) : Prop :=
  match c with
  | .diploma => p = .root
  | .chapter => p = .diploma ∨ p = .root
  | .article => p = .chapter ∨ p = .diploma ∨ p = .root
  | .root => False

/-- Every edge of the tree satisfies the parent-kind discipline. -/
inductive ParentsOK : BteNode → Prop
  | mk (t : NType) (h x : Option (List Char)) (cs : List BteNode) :
      (∀ c ∈ cs, parentAllowed t c.type) → (∀ c ∈ cs, ParentsOK c) →
      ParentsOK (.mk t h x cs)

theorem kidx_lt_parentAllowed {p c : NType} (h : kidx p < kidx c) :
    parentAllowed p c := by
  cases p <;> cases c <;> simp_all [parentAllowed, kidx]

theorem edges_parents : ∀ {nd : BteNode}, EdgesGood nd → ParentsOK nd := by
  intro nd hg
  induction hg with
  | mk t h x cs hlt hgs ih =>
    refine ParentsOK.mk t h x cs ?_ ih
    intro c hc
    exact kidx_lt_parentAllowed (hlt c hc)

/-- C5: in every tree the builder produces, the parent of every diploma
node is the root, the parent of every chapter node is a diploma node or
the root, and the parent of every article node is a chapter node, a
diploma node or the root. -/
theorem tree_parent_kinds (lines : List TextLine) :
    ParentsOK (buildTree lines) :=
  edges_parents (buildTree_good lines).2.2.1

/-- C6: the root of every tree the builder produces carries no body
text, and every article node carries a defined (possibly empty) body
text. -/
theorem tree_root_article_text (lines : List TextLine) :
    (buildTree lines).type = .root ∧ (buildTree lines).text = none ∧
    ArtText (buildTree lines) :=
  ⟨(buildTree_good lines).1, (buildTree_good lines).2.1,
   (buildTree_good lines).2.2.2⟩

/-!
## Claim C1: idempotence of body-text normalization

Preliminaries: generic facts about `dropWhile`, the two hyphen-joining
passes on hyphen-free text, and preservation of hyphen-freeness.
-/

theorem dropWhile_eq_self_of_head {p : Char → Bool} {l : List Char}
    (h : ∀ c, l.head? = some c → p c = false) : l.dropWhile p = l := by
  cases l with
  | nil => rfl
  | cons c rest =>
    rw [List.dropWhile_cons, if_neg]
    simp [h c rfl]

theorem dropWhile_head_false {p : Char → Bool} :
    ∀ {l : List Char} {c : Char}, (l.dropWhile p).head? = some c → p c = false := by
  intro l
  induction l with
  | nil => intro c h; cases h
  | cons x rest ih =>
    intro c h
    rw [List.dropWhile_cons] at h
    by_cases hx : p x = true
    · rw [if_pos hx] at h
      exact ih h
    · rw [if_neg hx] at h
      cases h
      simp at hx
      exact hx

theorem hyphenSplitTail_none {rest : List Char} (h : '-' ∉ rest) :
    hyphenSplitTail rest = none := by
  unfold hyphenSplitTail
  by_cases h1 : (rest.takeWhile isWs).isEmpty = true
  · rw [if_pos h1]
  · rw [if_neg h1]
    split
    · next r1 heq =>
      exfalso
      apply h
      have hmem : '-' ∈ rest.dropWhile isWs := by rw [heq]; simp
      exact (List.dropWhile_suffix isWs).subset hmem
    · rfl

theorem hyphenWrapTail_none {rest : List Char} (h : '-' ∉ rest) :
    hyphenWrapTail rest = none := by
  unfold hyphenWrapTail
  split
  · next r1 =>
    exact absurd (by simp : ('-' : Char) ∈ '-' :: r1) (by intro hm; exact h hm)
  · rfl

theorem joinSplitGo_id : ∀ (n : Nat) (l : List Char), '-' ∉ l →
    joinSplitGo n l = l := by
  intro n
  induction n with
  | zero => intro l _; rfl
  | succ m ih =>
    intro l hl
    cases l with
    | nil => rfl
    | cons c rest =>
      have hrest : '-' ∉ rest := fun hm => hl (by simp [hm])
      show joinSplitGo (m + 1) (c :: rest) = c :: rest
      simp only [joinSplitGo]
      by_cases hc : isLetterPT c = true
      · rw [if_pos hc, hyphenSplitTail_none hrest, ih rest hrest]
      · rw [if_neg hc, ih rest hrest]

theorem joinSplit_id {l : List Char} (h : '-' ∉ l) : joinSplit l = l :=
  joinSplitGo_id l.length l h

theorem joinWrapGo_id : ∀ (n : Nat) (l : List Char), '-' ∉ l →
    joinWrapGo n l = l := by
  intro n
  induction n with
  | zero => intro l _; rfl
  | succ m ih =>
    intro l hl
    cases l with
    | nil => rfl
    | cons c rest =>
      have hrest : '-' ∉ rest := fun hm => hl (by simp [hm])
      show joinWrapGo (m + 1) (c :: rest) = c :: rest
      simp only [joinWrapGo]
      by_cases hc : isLetterPT c = true
      · rw [if_pos hc, hyphenWrapTail_none hrest, ih rest hrest]
      · rw [if_neg hc, ih rest hrest]

theorem joinWrap_id {l : List Char} (h : '-' ∉ l) : joinWrap l = l :=
  joinWrapGo_id l.length l h

theorem mem_nlToSpace : ∀ {l : List Char} {a : Char}, a ∈ nlToSpace l →
    a ∈ l ∨ a = ' ' := by
  intro l
  induction l with
  | nil => intro a h; cases h
  | cons c rest ih =>
    intro a h
    rcases List.mem_cons.1 h with h1 | h1
    · by_cases hc : (c = '\n' && !enumLA rest) = true
      · rw [if_pos hc] at h1
        exact Or.inr h1
      · rw [if_neg hc] at h1
        exact Or.inl (by simp [h1])
    · rcases ih h1 with h2 | h2
      · exact Or.inl (by simp [h2])
      · exact Or.inr h2

theorem mem_collapseGo :
    ∀ {l : List Char} {pending : Option (Char × Bool)} {a : Char},
      a ∈ collapseGo pending l →
      a ∈ l ∨ a = ' ' ∨ ∃ b, pending = some (a, b) := by
  intro l
  induction l with
  | nil =>
    intro pending a h
    match pending with
    | none => cases h
    | some (c, multi) =>
      rcases List.mem_singleton.1 h with h1
      by_cases hm : multi = true
      · rw [hm] at h1
        simp at h1
        exact Or.inr (Or.inl h1)
      · simp only [hm] at h1
        simp at h1
        subst h1
        exact Or.inr (Or.inr ⟨multi, rfl⟩)
  | cons x rest ih =>
    intro pending a h
    by_cases hx : isWs x = true
    · match pending with
      | none =>
        rw [show collapseGo none (x :: rest) = collapseGo (some (x, false)) rest
          from by simp [collapseGo, hx]] at h
        rcases ih h with h1 | h1 | ⟨b, h1⟩
        · exact Or.inl (by simp [h1])
        · exact Or.inr (Or.inl h1)
        · cases h1
          exact Or.inl (by simp)
      | some (c, multi) =>
        rw [show collapseGo (some (c, multi)) (x :: rest) =
            collapseGo (some (c, true)) rest from by simp [collapseGo, hx]] at h
        rcases ih h with h1 | h1 | ⟨b, h1⟩
        · exact Or.inl (by simp [h1])
        · exact Or.inr (Or.inl h1)
        · cases h1
          exact Or.inr (Or.inr ⟨multi, rfl⟩)
    · match pending with
      | none =>
        rw [show collapseGo none (x :: rest) = x :: collapseGo none rest from by
          simp [collapseGo, hx]] at h
        rcases List.mem_cons.1 h with h2 | h2
        · exact Or.inl (by simp [h2])
        · rcases ih h2 with h3 | h3 | ⟨b, h3⟩
          · exact Or.inl (by simp [h3])
          · exact Or.inr (Or.inl h3)
          · cases h3
      | some (c, multi) =>
        rw [show collapseGo (some (c, multi)) (x :: rest) =
            (if multi then ' ' else c) :: x :: collapseGo none rest from by
          simp [collapseGo, hx]] at h
        rcases List.mem_cons.1 h with h2 | h2
        · by_cases hm : multi = true
          · rw [if_pos hm] at h2
            exact Or.inr (Or.inl h2)
          · rw [if_neg hm] at h2
            subst h2
            exact Or.inr (Or.inr ⟨multi, rfl⟩)
        · rcases List.mem_cons.1 h2 with h3 | h3
          · exact Or.inl (by simp [h3])
          · rcases ih h3 with h4 | h4 | ⟨b, h4⟩
            · exact Or.inl (by simp [h4])
            · exact Or.inr (Or.inl h4)
            · cases h4

theorem mem_trimWs {l : List Char} {a : Char} (h : a ∈ trimWs l) : a ∈ l := by
  unfold trimWs at h
  rw [List.mem_reverse] at h
  have h1 := (List.dropWhile_suffix isWs).subset h
  rw [List.mem_reverse] at h1
  exact (List.dropWhile_suffix isWs).subset h1

/-- Hyphen-freeness is preserved by the last three normalization
steps. -/
theorem noHyph_tail3 {l : List Char} (h : '-' ∉ l) :
    '-' ∉ trimWs (collapseWs (nlToSpace l)) := by
  intro hmem
  have h1 := mem_trimWs hmem
  rcases mem_collapseGo h1 with h2 | h2 | ⟨b, h2⟩
  · rcases mem_nlToSpace h2 with h3 | h3
    · exact h h3
    · cases h3
  · cases h2
  · cases h2

/-!
### Character facts and the look-ahead under pointwise transformations
-/

theorem isWs_cases {c : Char} (h : isWs c = true) :
    c = ' ' ∨ c = '\t' ∨ c = '\n' ∨ c = '\r' ∨ c = '\x0b' ∨ c = '\x0c' := by
  simpa [isWs, or_assoc] using h

theorem ws_not_digit {c : Char} (h : isWs c = true) : isDigitC c = false := by
  rcases isWs_cases h with h | h | h | h | h | h <;> subst h <;> decide

theorem not_ws_ne_nl {c : Char} (h : isWs c = false) : c ≠ '\n' := by
  intro he
  rw [he] at h
  exact absurd h (by decide)

/-- Equation for `enumLA` when the whitespace-skip leaves nothing. -/
theorem enumLA_eq_nil {v : List Char} (h : v.dropWhile isWs = []) :
    enumLA v = false := by
  unfold enumLA
  rw [h]

/-- Equation for `enumLA` when the whitespace-skip exposes a head. -/
theorem enumLA_eq_cons {v : List Char} {c : Char} {cs : List Char}
    (h : v.dropWhile isWs = c :: cs) :
    enumLA v =
      (if isDigitC c then
        delimHead (((c :: cs).dropWhile isDigitC).dropWhile isWs)
      else if isAsciiAlphaC c then delimHead (cs.dropWhile isWs)
      else false) := by
  unfold enumLA
  rw [h]

/-- The recursive form of "every newline has a valid enumeration
look-ahead on its right". -/
def goodNl : List Char → Prop
  | [] => True
  | c :: rest => (c = '\n' → enumLA rest = true) ∧ goodNl rest

theorem nlToSpace_cons (c : Char) (rest : List Char) :
    nlToSpace (c :: rest) =
      (if (c = '\n' && !enumLA rest) = true then ' ' else c) :: nlToSpace rest := by
  rfl

theorem nlToSpace_cons_ne {c : Char} (rest : List Char) (h : c ≠ '\n') :
    nlToSpace (c :: rest) = c :: nlToSpace rest := by
  rw [nlToSpace_cons, if_neg]
  simp [h]

theorem isWs_nlHead (c : Char) (rest : List Char) :
    isWs (if (c = '\n' && !enumLA rest) = true then ' ' else c) = isWs c := by
  by_cases h : (c = '\n' && !enumLA rest) = true
  · rw [if_pos h]
    have h' := h
    simp only [Bool.and_eq_true, decide_eq_true_eq] at h'
    rw [h'.1]
    decide
  · rw [if_neg h]

theorem isDigitC_nlHead (c : Char) (rest : List Char) :
    isDigitC (if (c = '\n' && !enumLA rest) = true then ' ' else c) =
      isDigitC c := by
  by_cases h : (c = '\n' && !enumLA rest) = true
  · rw [if_pos h]
    have h' := h
    simp only [Bool.and_eq_true, decide_eq_true_eq] at h'
    rw [h'.1]
    decide
  · rw [if_neg h]

theorem nlToSpace_dropWhile_ws :
    ∀ v : List Char, (nlToSpace v).dropWhile isWs = nlToSpace (v.dropWhile isWs) := by
  intro v
  induction v with
  | nil => rfl
  | cons c rest ih =>
    rw [nlToSpace_cons, List.dropWhile_cons, isWs_nlHead, List.dropWhile_cons]
    by_cases hc : isWs c = true
    · rw [if_pos hc, if_pos hc, ih]
    · rw [if_neg hc, if_neg hc, ← nlToSpace_cons]

theorem nlToSpace_dropWhile_digit :
    ∀ v : List Char,
      (nlToSpace v).dropWhile isDigitC = nlToSpace (v.dropWhile isDigitC) := by
  intro v
  induction v with
  | nil => rfl
  | cons c rest ih =>
    rw [nlToSpace_cons, List.dropWhile_cons, isDigitC_nlHead, List.dropWhile_cons]
    by_cases hc : isDigitC c = true
    · rw [if_pos hc, if_pos hc, ih]
    · rw [if_neg hc, if_neg hc, ← nlToSpace_cons]

theorem delimHead_nlToSpace {w : List Char}
    (hw : ∀ d, w.head? = some d → isWs d = false) :
    delimHead (nlToSpace w) = delimHead w := by
  cases w with
  | nil => rfl
  | cons d rest =>
    rw [nlToSpace_cons_ne rest (not_ws_ne_nl (hw d rfl))]
    rfl

/-- The enumeration look-ahead is unchanged by the newline-to-space
pass: the pass only turns newlines into spaces, which the look-ahead's
whitespace classes cannot distinguish. -/
theorem enumLA_nlToSpace_eq (v : List Char) :
    enumLA (nlToSpace v) = enumLA v := by
  cases hd : v.dropWhile isWs with
  | nil =>
    rw [enumLA_eq_nil hd, enumLA_eq_nil]
    rw [nlToSpace_dropWhile_ws, hd]
    rfl
  | cons c cs =>
    have hcw : isWs c = false := dropWhile_head_false (by rw [hd]; rfl)
    have hcne : c ≠ '\n' := not_ws_ne_nl hcw
    have hd2 : (nlToSpace v).dropWhile isWs = c :: nlToSpace cs := by
      rw [nlToSpace_dropWhile_ws, hd, nlToSpace_cons_ne cs hcne]
    rw [enumLA_eq_cons hd, enumLA_eq_cons hd2]
    by_cases hdig : isDigitC c = true
    · rw [if_pos hdig, if_pos hdig]
      rw [← nlToSpace_cons_ne cs hcne, nlToSpace_dropWhile_digit,
        nlToSpace_dropWhile_ws]
      exact delimHead_nlToSpace fun d hdh => dropWhile_head_false hdh
    · rw [if_neg hdig, if_neg hdig]
      by_cases hal : isAsciiAlphaC c = true
      · rw [if_pos hal, if_pos hal]
        rw [nlToSpace_dropWhile_ws]
        exact delimHead_nlToSpace fun d hdh => dropWhile_head_false hdh
      · rw [if_neg hal, if_neg hal]

/-- The newline-to-space pass always produces a `goodNl` string: every
newline it keeps was kept because its look-ahead held, and the pass does
not change the look-ahead. -/
theorem goodNl_nlToSpace : ∀ v : List Char, goodNl (nlToSpace v) := by
  intro v
  induction v with
  | nil => trivial
  | cons c rest ih =>
    rw [nlToSpace_cons]
    refine ⟨?_, ih⟩
    intro ho
    by_cases h : (c = '\n' && !enumLA rest) = true
    · rw [if_pos h] at ho
      exact absurd ho (by decide)
    · rw [if_neg h] at ho
      subst ho
      have he : enumLA rest = true := by
        by_cases he : enumLA rest = true
        · exact he
        · exfalso
          apply h
          simp [he]
      rw [enumLA_nlToSpace_eq]
      exact he

/-- On a `goodNl` string the newline-to-space pass is the identity. -/
theorem nlToSpace_id : ∀ {l : List Char}, goodNl l → nlToSpace l = l := by
  intro l
  induction l with
  | nil => intro _; rfl
  | cons c rest ih =>
    intro hg
    rw [nlToSpace_cons, ih hg.2]
    by_cases hc : c = '\n'
    · rw [if_neg (by simp [hc, hg.1 hc])]
    · rw [if_neg (by simp [hc])]

/-!
### Structure of the whitespace-collapsing pass
-/

theorem collapseWs_cons_not_ws {x : Char} (rest : List Char)
    (hx : isWs x = false) : collapseWs (x :: rest) = x :: collapseWs rest := by
  simp [collapseWs, collapseGo, hx]

/-- Consuming one whitespace run: the pending run is flushed as a single
space (when it has at least two characters) or as itself, and collapsing
restarts after the run. -/
theorem collapseGo_run : ∀ (cs : List Char) (c : Char) (b : Bool),
    collapseGo (some (c, b)) cs =
      (if b = true ∨ cs.takeWhile isWs ≠ [] then [' '] else [c]) ++
        collapseWs (cs.dropWhile isWs) := by
  intro cs
  induction cs with
  | nil =>
    intro c b
    by_cases hb : b = true
    · show [if b = true then ' ' else c] = _
      rw [if_pos hb, if_pos (Or.inl hb)]
      rfl
    · show [if b = true then ' ' else c] = _
      rw [if_neg hb, if_neg (by simp [hb])]
      rfl
  | cons y ys ih =>
    intro c b
    by_cases hy : isWs y = true
    · rw [show collapseGo (some (c, b)) (y :: ys) =
          collapseGo (some (c, true)) ys from by simp [collapseGo, hy]]
      rw [ih c true, if_pos (Or.inl rfl), List.takeWhile_cons, List.dropWhile_cons,
        if_pos hy, if_pos hy, if_pos (Or.inr (by simp))]
    · rw [show collapseGo (some (c, b)) (y :: ys) =
          (if b = true then ' ' else c) :: y :: collapseGo none ys from by
        simp [collapseGo, hy]]
      rw [List.takeWhile_cons, List.dropWhile_cons, if_neg hy, if_neg hy,
        collapseWs_cons_not_ws ys (by simpa using hy)]
      by_cases hb : b = true
      · rw [if_pos hb, if_pos (Or.inl hb)]
        rfl
      · rw [if_neg hb, if_neg (by simp [hb])]
        rfl

/-- Skipping leading whitespace commutes with collapsing. -/
theorem collapse_dropWhile_ws : ∀ v : List Char,
    (collapseWs v).dropWhile isWs = collapseWs (v.dropWhile isWs) := by
  intro v
  cases v with
  | nil => rfl
  | cons x rest =>
    by_cases hx : isWs x = true
    · rw [show collapseWs (x :: rest) = collapseGo (some (x, false)) rest from by
        simp [collapseWs, collapseGo, hx]]
      rw [collapseGo_run, List.dropWhile_cons, if_pos hx, List.dropWhile_append]
      have hflush :
          ((if false = true ∨ rest.takeWhile isWs ≠ [] then [' ']
            else [x]).dropWhile isWs).isEmpty = true := by
        by_cases hc : (false = true ∨ rest.takeWhile isWs ≠ [])
        · rw [if_pos hc]
          decide
        · rw [if_neg hc]
          simp [List.dropWhile_cons, hx]
      rw [if_pos hflush]
      cases hr : rest.dropWhile isWs with
      | nil => rfl
      | cons d ds =>
        have hd : isWs d = false := dropWhile_head_false (by rw [hr]; rfl)
        rw [collapseWs_cons_not_ws ds hd, List.dropWhile_cons,
          if_neg (by simp [hd])]
    · rw [collapseWs_cons_not_ws rest (by simpa using hx), List.dropWhile_cons,
        if_neg (by simp [hx]), List.dropWhile_cons, if_neg (by simp [hx]),
        collapseWs_cons_not_ws rest (by simpa using hx)]

/-- Skipping a leading digit run commutes with collapsing (digits are
not whitespace, so the collapse pass copies them). -/
theorem collapse_dropWhile_digit : ∀ v : List Char,
    (collapseWs v).dropWhile isDigitC = collapseWs (v.dropWhile isDigitC) := by
  intro v
  induction v with
  | nil => rfl
  | cons x rest ih =>
    by_cases hdig : isDigitC x = true
    · have hx : isWs x = false := by
        by_cases h : isWs x = true
        · rw [ws_not_digit h] at hdig
          cases hdig
        · simpa using h
      rw [collapseWs_cons_not_ws rest hx, List.dropWhile_cons, if_pos hdig,
        List.dropWhile_cons, if_pos hdig, ih]
    · rw [List.dropWhile_cons, if_neg (by simp [hdig])]
      by_cases hx : isWs x = true
      · rw [show collapseWs (x :: rest) = collapseGo (some (x, false)) rest from by
          simp [collapseWs, collapseGo, hx]]
        rw [collapseGo_run]
        by_cases hc : (false = true ∨ rest.takeWhile isWs ≠ [])
        · rw [if_pos hc, List.singleton_append, List.dropWhile_cons,
            if_neg (by decide)]
        · rw [if_neg hc, List.singleton_append, List.dropWhile_cons,
            if_neg (by simp [ws_not_digit hx])]
      · rw [collapseWs_cons_not_ws rest (by simpa using hx), List.dropWhile_cons,
          if_neg (by simp [hdig])]

/-- Collapsing preserves a valid enumeration look-ahead. -/
theorem enumLA_collapse {v : List Char} (h : enumLA v = true) :
    enumLA (collapseWs v) = true := by
  cases hd : v.dropWhile isWs with
  | nil =>
    rw [enumLA_eq_nil hd] at h
    cases h
  | cons c cs =>
    have hcw : isWs c = false := dropWhile_head_false (by rw [hd]; rfl)
    have hd2 : (collapseWs v).dropWhile isWs = c :: collapseWs cs := by
      rw [collapse_dropWhile_ws, hd, collapseWs_cons_not_ws cs hcw]
    rw [enumLA_eq_cons hd] at h
    rw [enumLA_eq_cons hd2]
    by_cases hdig : isDigitC c = true
    · rw [if_pos hdig] at h ⊢
      have hcomm : ((c :: collapseWs cs).dropWhile isDigitC).dropWhile isWs =
          collapseWs (((c :: cs).dropWhile isDigitC).dropWhile isWs) := by
        rw [← collapseWs_cons_not_ws cs hcw, collapse_dropWhile_digit,
          collapse_dropWhile_ws]
      rw [hcomm]
      cases hw : ((c :: cs).dropWhile isDigitC).dropWhile isWs with
      | nil =>
        rw [hw] at h
        cases h
      | cons d ds =>
        have hdw : isWs d = false := dropWhile_head_false (by rw [hw]; rfl)
        rw [hw] at h
        rw [collapseWs_cons_not_ws ds hdw]
        exact h
    · rw [if_neg hdig] at h ⊢
      by_cases hal : isAsciiAlphaC c = true
      · rw [if_pos hal] at h ⊢
        rw [collapse_dropWhile_ws]
        cases hw : cs.dropWhile isWs with
        | nil =>
          rw [hw] at h
          cases h
        | cons d ds =>
          have hdw : isWs d = false := dropWhile_head_false (by rw [hw]; rfl)
          rw [hw] at h
          rw [collapseWs_cons_not_ws ds hdw]
          exact h
      · rw [if_neg hal] at h
        cases h

/-- No two adjacent whitespace characters. -/
def NoRun (l : List Char) : Prop :=
  List.Chain' (fun a b => ¬(isWs a = true ∧ isWs b = true)) l

/-- The collapse pass never leaves two adjacent whitespace
characters. -/
theorem noRun_collapseGo :
    ∀ (l : List Char) (pending : Option (Char × Bool)),
      NoRun (collapseGo pending l) := by
  intro l
  induction l with
  | nil =>
    intro pending
    match pending with
    | none => exact List.chain'_nil
    | some (c, b) => exact List.chain'_singleton _
  | cons x rest ih =>
    intro pending
    by_cases hx : isWs x = true
    · match pending with
      | none =>
        rw [show collapseGo none (x :: rest) = collapseGo (some (x, false)) rest
          from by simp [collapseGo, hx]]
        exact ih _
      | some (c, b) =>
        rw [show collapseGo (some (c, b)) (x :: rest) =
            collapseGo (some (c, true)) rest from by simp [collapseGo, hx]]
        exact ih _
    · match pending with
      | none =>
        rw [show collapseGo none (x :: rest) = x :: collapseGo none rest from by
          simp [collapseGo, hx]]
        rw [NoRun, List.chain'_cons']
        exact ⟨fun y _ => by simp [hx], ih none⟩
      | some (c, b) =>
        rw [show collapseGo (some (c, b)) (x :: rest) =
            (if b = true then ' ' else c) :: x :: collapseGo none rest from by
          simp [collapseGo, hx]]
        rw [NoRun, List.chain'_cons', List.chain'_cons']
        refine ⟨fun y hy => ?_, fun y hy => by simp [hx], ih none⟩
        simp only [List.head?_cons, Option.mem_def, Option.some.injEq] at hy
        subst hy
        simp [hx]

/-- On a run-free string the collapse pass is the identity; the second
component handles a pending single whitespace character followed by a
non-whitespace head. -/
theorem collapse_id_aux : ∀ l : List Char, NoRun l →
    collapseWs l = l ∧
    (∀ c, (l = [] ∨ ∀ d, l.head? = some d → isWs d = false) →
      collapseGo (some (c, false)) l = c :: l) := by
  intro l
  induction l with
  | nil =>
    intro _
    exact ⟨rfl, fun c _ => rfl⟩
  | cons x rest ih =>
    intro hnr
    have hnr' : NoRun rest := hnr.tail
    constructor
    · by_cases hx : isWs x = true
      · rw [show collapseWs (x :: rest) = collapseGo (some (x, false)) rest
          from by simp [collapseWs, collapseGo, hx]]
        refine (ih hnr').2 x ?_
        cases rest with
        | nil => exact Or.inl rfl
        | cons d ds =>
          refine Or.inr fun d' hd' => ?_
          simp only [List.head?_cons, Option.some.injEq] at hd'
          subst hd'
          have hpair := (List.chain'_cons.1 hnr).1
          by_cases hd2 : isWs d = true
          · exact absurd ⟨hx, hd2⟩ hpair
          · simpa using hd2
      · rw [collapseWs_cons_not_ws rest (by simpa using hx), (ih hnr').1]
    · intro c hhead
      have hx : isWs x = false := by
        rcases hhead with h | h
        · cases h
        · exact h x rfl
      rw [show collapseGo (some (c, false)) (x :: rest) =
          c :: x :: collapseGo none rest from by simp [collapseGo, hx]]
      rw [show collapseGo none rest = collapseWs rest from rfl, (ih hnr').1]

/-!
### The collapse pass preserves look-ahead validity of kept newlines
-/

/-- The collapse pass keeps every string `goodNl`: a newline it emits is
either a pending single-newline run whose look-ahead held on the input,
and collapsing the rest preserves that look-ahead, or an isolated
newline copied directly. -/
theorem collapse_goodNl :
    ∀ (l : List Char) (pending : Option (Char × Bool)),
      goodNl l → (pending = some ('\n', false) → enumLA l = true) →
      goodNl (collapseGo pending l) := by
  intro l
  induction l with
  | nil =>
    intro pending hg hp
    match pending with
    | none => trivial
    | some (c, b) =>
      show goodNl [if b = true then ' ' else c]
      refine ⟨?_, trivial⟩
      intro hy
      by_cases hb : b = true
      · rw [if_pos hb] at hy
        exact absurd hy (by decide)
      · rw [if_neg hb] at hy
        subst hy
        have hfalse := hp (by rw [show b = false from by simpa using hb])
        exact absurd hfalse (by decide)
  | cons x rest ih =>
    intro pending hg hp
    by_cases hx : isWs x = true
    · match pending with
      | none =>
        rw [show collapseGo none (x :: rest) = collapseGo (some (x, false)) rest
          from by simp [collapseGo, hx]]
        refine ih _ hg.2 ?_
        intro heq
        have hxnl : x = '\n' := by
          simpa using congrArg (fun o => (Option.getD o (' ', false)).1) heq
        exact hg.1 hxnl
      | some (c, b) =>
        rw [show collapseGo (some (c, b)) (x :: rest) =
            collapseGo (some (c, true)) rest from by simp [collapseGo, hx]]
        refine ih _ hg.2 ?_
        intro heq
        exact absurd heq (by simp)
    · match pending with
      | none =>
        rw [show collapseGo none (x :: rest) = x :: collapseGo none rest from by
          simp [collapseGo, hx]]
        exact ⟨fun hxe => absurd hxe (not_ws_ne_nl (by simpa using hx)),
          ih none hg.2 (by intro h; cases h)⟩
      | some (c, b) =>
        rw [show collapseGo (some (c, b)) (x :: rest) =
            (if b = true then ' ' else c) :: x :: collapseGo none rest from by
          simp [collapseGo, hx]]
        refine ⟨?_, fun hxe => absurd hxe (not_ws_ne_nl (by simpa using hx)),
          ih none hg.2 (by intro h; cases h)⟩
        intro hfl
        by_cases hb : b = true
        · rw [if_pos hb] at hfl
          exact absurd hfl (by decide)
        · rw [if_neg hb] at hfl
          have henum : enumLA (x :: rest) = true :=
            hp (by rw [hfl, show b = false from by simpa using hb])
          have hcoll : x :: collapseGo none rest = collapseWs (x :: rest) :=
            (collapseWs_cons_not_ws rest (by simpa using hx)).symm
          rw [hcoll]
          exact enumLA_collapse henum

/-!
### Removing an all-whitespace suffix preserves the look-ahead
-/

theorem delimHead_append {l w : List Char} (h : ¬l.isEmpty = true) :
    delimHead (l ++ w) = delimHead l := by
  cases l with
  | nil => exact absurd rfl h
  | cons d ds => rfl

theorem dropWhile_eq_nil_all {p : Char → Bool} {w : List Char}
    (h : ∀ c ∈ w, p c = true) : w.dropWhile p = [] := by
  induction w with
  | nil => rfl
  | cons c cs ih =>
    rw [List.dropWhile_cons, if_pos (h c (by simp))]
    exact ih fun c' hc' => h c' (by simp [hc'])

theorem enumLA_append_ws (v w : List Char) (hw : ∀ c ∈ w, isWs c = true)
    (h : enumLA (v ++ w) = true) : enumLA v = true := by
  have hwnil : w.dropWhile isWs = [] := dropWhile_eq_nil_all hw
  have hwd : w.dropWhile isDigitC = w :=
    dropWhile_eq_self_of_head fun c hc =>
      ws_not_digit (hw c (List.mem_of_mem_head? hc))
  cases hd : v.dropWhile isWs with
  | nil =>
    have hnil : (v ++ w).dropWhile isWs = [] := by
      rw [List.dropWhile_append, hd]
      simp [hwnil]
    rw [enumLA_eq_nil hnil] at h
    cases h
  | cons c cs =>
    have hdvw : (v ++ w).dropWhile isWs = c :: (cs ++ w) := by
      rw [List.dropWhile_append, hd]
      simp
    rw [enumLA_eq_cons hdvw] at h
    rw [enumLA_eq_cons hd]
    by_cases hdig : isDigitC c = true
    · rw [if_pos hdig] at h ⊢
      have hccs : c :: (cs ++ w) = (c :: cs) ++ w := by simp
      rw [hccs, List.dropWhile_append] at h
      by_cases hD : ((c :: cs).dropWhile isDigitC).isEmpty = true
      · rw [if_pos hD, hwd, hwnil] at h
        exact absurd h (by decide)
      · rw [if_neg hD, List.dropWhile_append] at h
        by_cases hE : (((c :: cs).dropWhile isDigitC).dropWhile isWs).isEmpty = true
        · rw [if_pos hE, hwnil] at h
          exact absurd h (by decide)
        · rw [if_neg hE, delimHead_append hE] at h
          exact h
    · rw [if_neg hdig] at h ⊢
      by_cases hal : isAsciiAlphaC c = true
      · rw [if_pos hal] at h ⊢
        rw [List.dropWhile_append] at h
        by_cases hE : (cs.dropWhile isWs).isEmpty = true
        · rw [if_pos hE, hwnil] at h
          exact absurd h (by decide)
        · rw [if_neg hE, delimHead_append hE] at h
          exact h
      · rw [if_neg hal] at h
        cases h

/-!
### `goodNl` in split form and its closure properties
-/

theorem goodNl_iff :
    ∀ l : List Char,
      goodNl l ↔ ∀ u v, l = u ++ '\n' :: v → enumLA v = true := by
  intro l
  induction l with
  | nil =>
    constructor
    · intro _ u v h
      exact absurd h (by simp)
    · intro _
      trivial
  | cons c rest ih =>
    constructor
    · rintro ⟨h1, h2⟩ u v heq
      cases u with
      | nil =>
        simp only [List.nil_append, List.cons.injEq] at heq
        exact heq.2 ▸ h1 heq.1
      | cons a u' =>
        simp only [List.cons_append, List.cons.injEq] at heq
        exact (ih.1 h2) u' v heq.2
    · intro h
      exact ⟨fun hc => h [] rest (by rw [hc]; rfl),
        ih.2 fun u v hv => h (c :: u) v (by rw [hv]; rfl)⟩

theorem goodNl_append_right :
    ∀ {u l' : List Char}, goodNl (u ++ l') → goodNl l' := by
  intro u
  induction u with
  | nil => intro l' h; exact h
  | cons a u' ih => intro l' h; exact ih h.2

theorem goodNl_of_append_ws {m w : List Char}
    (hw : ∀ c ∈ w, isWs c = true) (h : goodNl (m ++ w)) : goodNl m := by
  rw [goodNl_iff] at h ⊢
  intro u v heq
  refine enumLA_append_ws v w hw (h u (v ++ w) ?_)
  rw [heq]
  simp

/-!
### Trimming
-/

theorem trimWs_eq_of {l : List Char}
    (h1 : ∀ c, l.head? = some c → isWs c = false)
    (h2 : ∀ c, l.getLast? = some c → isWs c = false) : trimWs l = l := by
  unfold trimWs
  rw [dropWhile_eq_self_of_head h1]
  rw [dropWhile_eq_self_of_head fun c hc =>
    h2 c (by rwa [List.head?_reverse] at hc)]
  exact List.reverse_reverse l

theorem trim_last {l : List Char} :
    ∀ c, (trimWs l).getLast? = some c → isWs c = false := by
  intro c hc
  unfold trimWs at hc
  rw [List.getLast?_reverse] at hc
  exact dropWhile_head_false hc

theorem trim_head {l : List Char} :
    ∀ c, (trimWs l).head? = some c → isWs c = false := by
  intro c hc
  unfold trimWs at hc
  rw [List.head?_reverse] at hc
  have hdecomp : (l.dropWhile isWs).reverse =
      (l.dropWhile isWs).reverse.takeWhile isWs ++
        (l.dropWhile isWs).reverse.dropWhile isWs :=
    (List.takeWhile_append_dropWhile isWs _).symm
  have hXne : (l.dropWhile isWs).reverse.dropWhile isWs ≠ [] := by
    intro hXe
    rw [hXe] at hc
    cases hc
  have hlastA : (l.dropWhile isWs).reverse.getLast? = some c := by
    rw [hdecomp, List.getLast?_append_of_ne_nil _ hXne]
    exact hc
  rw [List.getLast?_reverse] at hlastA
  exact dropWhile_head_false hlastA

theorem noRun_trimWs {l : List Char} (h : NoRun l) : NoRun (trimWs l) := by
  have h1 : NoRun (l.dropWhile isWs) := h.suffix (List.dropWhile_suffix isWs)
  have hpre : trimWs l <+: l.dropWhile isWs := by
    show ((l.dropWhile isWs).reverse.dropWhile isWs).reverse <+: l.dropWhile isWs
    rw [← List.reverse_suffix, List.reverse_reverse]
    exact List.dropWhile_suffix isWs
  exact h1.prefix hpre

theorem goodNl_trimWs {l : List Char} (h : goodNl l) : goodNl (trimWs l) := by
  have h1 : goodNl (l.dropWhile isWs) :=
    goodNl_append_right
      ((List.takeWhile_append_dropWhile isWs l).symm ▸ h)
  have hdecomp : l.dropWhile isWs =
      ((l.dropWhile isWs).reverse.dropWhile isWs).reverse ++
        ((l.dropWhile isWs).reverse.takeWhile isWs).reverse := by
    calc l.dropWhile isWs = (l.dropWhile isWs).reverse.reverse :=
          (List.reverse_reverse _).symm
    _ = ((l.dropWhile isWs).reverse.takeWhile isWs ++
          (l.dropWhile isWs).reverse.dropWhile isWs).reverse := by
        rw [List.takeWhile_append_dropWhile]
    _ = ((l.dropWhile isWs).reverse.dropWhile isWs).reverse ++
          ((l.dropWhile isWs).reverse.takeWhile isWs).reverse := by
        rw [List.reverse_append]
  have hwsfx : ∀ c ∈ ((l.dropWhile isWs).reverse.takeWhile isWs).reverse,
      isWs c = true := by
    intro c hcmem
    rw [List.mem_reverse] at hcmem
    exact List.mem_takeWhile_imp hcmem
  show goodNl (((l.dropWhile isWs).reverse.dropWhile isWs).reverse)
  exact goodNl_of_append_ws hwsfx (hdecomp ▸ h1)

/-!
### Idempotence of the tail of the normalization pipeline
-/

/-- The composition newline-replacement, whitespace-collapse, trim is
idempotent on every string. -/
theorem normalize_tail_idem (m : List Char) :
    trimWs (collapseWs (nlToSpace (trimWs (collapseWs (nlToSpace m))))) =
      trimWs (collapseWs (nlToSpace m)) := by
  have hg2 : goodNl (collapseWs (nlToSpace m)) :=
    collapse_goodNl (nlToSpace m) none (goodNl_nlToSpace m)
      (by intro h; cases h)
  have hg3 : goodNl (trimWs (collapseWs (nlToSpace m))) := goodNl_trimWs hg2
  have hnr3 : NoRun (trimWs (collapseWs (nlToSpace m))) :=
    noRun_trimWs (noRun_collapseGo (nlToSpace m) none)
  rw [nlToSpace_id hg3, (collapse_id_aux _ hnr3).1]
  exact trimWs_eq_of (fun c hc => trim_head c hc) (fun c hc => trim_last c hc)

/-- Counterexample to C1 as stated: normalization is not idempotent.
The overlapping-match string `"a - b - c"` is joined to `"ab - c"` by
the first pass (the global regex replacement resumes after the match, so
the second `" - "` is not joined), and a second pass joins the rest. -/
theorem normalize_idem_cex :
    normalizeText ("a - b - c".toList) = "ab - c".toList ∧
    normalizeText (normalizeText ("a - b - c".toList)) = "abc".toList ∧
    normalizeText (normalizeText ("a - b - c".toList)) ≠
      normalizeText ("a - b - c".toList) := by
  refine ⟨by decide, by decide, by decide⟩

/-- C1 amended: on hyphen-free text the normalization sequence is
idempotent.  (The letter-hyphen joining passes are the identity on such
text, and the remaining newline-replacement, whitespace-collapse and
trim passes are idempotent on all text.) -/
theorem normalize_idem_hyphen_free (s : List Char) (h : '-' ∉ s) :
    normalizeText (normalizeText s) = normalizeText s := by
  have h1 : normalizeText s = trimWs (collapseWs (nlToSpace s)) := by
    unfold normalizeText
    rw [joinSplit_id h, joinWrap_id h]
  have hnh : '-' ∉ trimWs (collapseWs (nlToSpace s)) := noHyph_tail3 h
  rw [h1]
  unfold normalizeText
  rw [joinSplit_id hnh, joinWrap_id hnh]
  exact normalize_tail_idem s

/-- Witness for the amended C1 at a concrete hyphen-free string. -/
theorem normalize_idem_hyphen_free_witness :
    ('-' ∉ "item 1.\nitem 2.".toList) ∧
    normalizeText (normalizeText "item 1.\nitem 2.".toList) =
      normalizeText "item 1.\nitem 2.".toList :=
  ⟨by decide, normalize_idem_hyphen_free _ (by decide)⟩

end Bte
